import Mathlib

/-! # caelum/client.go: the exchange handler and the file operation handlers

A shallow embedding of `src/caelum/client.go`.  Go strings and byte slices are
lists of characters, the channels of one exchange and the local filesystem are
fields of an explicit `World` that every operation threads through, and the
three ways a goroutine can fail to return (a runtime panic, a receive that
never completes, a recursion that runs out of the fuel given to the model) are
constructors of the result type `Res`.

The Go library functions the file calls (`strings`, `path/filepath`, `os`,
`io/ioutil`, `net/url`) are modelled after their documented behaviour on a
Unix system without symbolic links; the declarations that live in other files
of the package (`DELIMITERBUFFER`, `IsDelimiter`, `IntToBytes`, `BUFFER_SIZE`)
and the MIME table are fields of `Config`.
-/

namespace Caelum

/-- Go `string` and `[]byte` values. -/
abbrev Str := List Char

/-- One message on a channel of an exchange. -/
abbrev Frame := List Char

/-! ## Errors (client.go 19-56) -/

/-- The two implementations of the `HttpError` interface. -/
inductive HttpError where
  | HandlingError (message : Str)
  | httpError (statusCode : Int) (message : Str)
  deriving DecidableEq, Repr

/-- Method `StatusCode` of both implementations: a `HandlingError` is always 500. -/
def HttpError.StatusCode : HttpError → Int
  | .HandlingError _ => 500
  | .httpError statusCode _ => statusCode

/-- Method `Error` of both implementations. -/
def HttpError.Error : HttpError → Str
  | .HandlingError message => message
  | .httpError _ message => message

def NewHandlingError (message : Str) : HttpError := .HandlingError message

def NewHttpError (statusCode : Int) (message : Str) : HttpError :=
  .httpError statusCode message

/-! ## package strings -/

namespace strings

/-- `strings.HasPrefix(s, prefix)`. -/
def HasPrefix (s pre : Str) : Bool := pre.isPrefixOf s

/-- `strings.Split(s, sep)` for a separator of one byte: the pieces of `s`
between the occurrences of `sep`, always at least one piece. -/
def Split (s : Str) (sep : Char) : List Str :=
  match s with
  | [] => [[]]
  | c :: cs =>
    if c = sep then [] :: Split cs sep
    else
      match Split cs sep with
      | [] => [[c]]
      | piece :: pieces => (c :: piece) :: pieces

/-- `strings.Join(elems, sep)`. -/
def Join (elems : List Str) (sep : Str) : Str := sep.intercalate elems

end strings

/-! ## package path/filepath (Unix) -/

namespace filepath

/-- `filepath.IsAbs`: the path begins with a slash. -/
def IsAbs (path : Str) : Bool := strings.HasPrefix path ['/']

/-- One step of the loop of `filepath.Clean`, on the path element `c` with the
elements kept so far in `out`: an empty element and `.` are dropped, `..`
removes the last kept element when there is one to remove, is dropped at the
root of a rooted path and is kept otherwise, any other element is kept. -/
def cleanElem (rooted : Bool) (out : List Str) (c : Str) : List Str :=
  if c = [] then out
  else if c = ['.'] then out
  else if c = ['.', '.'] then
    match out.getLast? with
    | none => if rooted then out else out ++ [c]
    | some l => if l = ['.', '.'] then out ++ [c] else out.dropLast
  else out ++ [c]

/-- The elements `filepath.Clean` keeps of a path. -/
def cleanElems (rooted : Bool) (path : Str) : List Str :=
  (strings.Split path '/').foldl (cleanElem rooted) []

/-- `filepath.Clean`: the shortest path equivalent to `path` by purely lexical
processing; the empty path and a path that cleans to nothing give `.`. -/
def Clean (path : Str) : Str :=
  if path = [] then ['.']
  else
    let rooted := IsAbs path
    let s := (if rooted then ['/'] else []) ++ strings.Join (cleanElems rooted path) ['/']
    if s = [] then ['.'] else s

/-- `filepath.Join`: the elements from the first non-empty one on, joined by a
slash and cleaned; the empty string when every element is empty. -/
def Join (elem : List Str) : Str :=
  match elem.dropWhile (fun e => decide (e = [])) with
  | [] => []
  | e :: rest => Clean (strings.Join (e :: rest) ['/'])

/-- `filepath.Abs`, given the result of `os.Getwd` (`none` when it fails): an
absolute path is cleaned, a relative one is joined to the working directory. -/
def Abs (wd : Option Str) (path : Str) : Except Str Str :=
  if IsAbs path then .ok (Clean path)
  else
    match wd with
    | none => .error "getwd: no such file or directory".toList
    | some dir => .ok (Join [dir, path])

/-- Drop the trailing slashes of a path (a step of `filepath.Base`). -/
def stripTrailingSlashes (path : Str) : Str :=
  (path.reverse.dropWhile (fun c => decide (c = '/'))).reverse

/-- `filepath.Base`: the last element of the path, `.` for the empty path and
`/` for a path of slashes only. -/
def Base (path : Str) : Str :=
  if path = [] then ['.']
  else
    let last := ((strings.Split (stripTrailingSlashes path) '/').getLast?).getD []
    if last = [] then ['/'] else last

/-- The suffix of `s` from its last dot on, scanning `s` from the left with the
best suffix found so far. -/
def lastDotSuffix : Str → Option Str → Option Str
  | [], best => best
  | c :: cs, best => lastDotSuffix cs (if c = '.' then some (c :: cs) else best)

/-- `filepath.Ext`: the suffix beginning at the final dot in the final element
of the path, empty if there is no dot. -/
def Ext (path : Str) : Str :=
  ((lastDotSuffix (((strings.Split path '/').getLast?).getD []) none).getD [])

end filepath

/-! ## Path Guard (client.go 58-67) -/

/-- `safePath`: the absolute form of the join of `rootPath` and `path`, refused
with the error `Hacking attempt` unless it has the string `rootPath` as a
prefix.  `wd` is what `os.Getwd` returns inside `filepath.Abs`. -/
def safePath (wd : Option Str) (rootPath path : Str) : Except HttpError Str :=
  match filepath.Abs wd (filepath.Join [rootPath, path]) with
  | .error err => .error (NewHttpError 500 err)
  | .ok absPath =>
    if !strings.HasPrefix absPath rootPath then
      .error (NewHandlingError "Hacking attempt".toList)
    else
      .ok absPath

/-! ## The local filesystem -/

/-- A node of the filesystem: a regular file with its bytes, its modification
time as `ModTime().String()` renders it and whether it may be opened for
reading, or a directory with its modification time and its entries by name. -/
inductive Node where
  | file (content : Str) (modTime : Str) (readable : Bool)
  | dir (modTime : Str) (entries : List (Str × Node))

namespace Node

/-- `FileInfo.IsDir`. -/
def IsDir : Node → Bool
  | .file _ _ _ => false
  | .dir _ _ => true

/-- `FileInfo.ModTime().String()`. -/
def ModTime : Node → Str
  | .file _ modTime _ => modTime
  | .dir modTime _ => modTime

/-- The entry called `name` in a list of directory entries. -/
def find (name : Str) : List (Str × Node) → Option Node
  | [] => none
  | (n, x) :: rest => if n = name then some x else find name rest

/-- Replace the entry called `name` by `x`, or add it when there is none. -/
def setEntry (name : Str) (x : Node) : List (Str × Node) → List (Str × Node)
  | [] => [(name, x)]
  | (n, y) :: rest => if n = name then (n, x) :: rest else (n, y) :: setEntry name x rest

/-- Remove the entry called `name`. -/
def removeEntry (name : Str) : List (Str × Node) → List (Str × Node)
  | [] => []
  | (n, y) :: rest => if n = name then rest else (n, y) :: removeEntry name rest

/-- The node reached from `n` by following the path elements in turn. -/
def walk : Node → List Str → Option Node
  | n, [] => some n
  | .file _ _ _, _ :: _ => none
  | .dir _ es, c :: cs =>
    match find c es with
    | none => none
    | some child => walk child cs

/-- Put the node `x` at the path `p` below `n`: the directory that is to hold it
must exist; its modification time becomes `now` when the entry is new. -/
def put (now : Str) : Node → List Str → Node → Option Node
  | _, [], _ => none
  | .file _ _ _, _ :: _, _ => none
  | .dir m es, [c], x =>
    some (.dir (if (find c es).isSome then m else now) (setEntry c x es))
  | .dir m es, c :: c2 :: cs, x =>
    match find c es with
    | none => none
    | some child =>
      match put now child (c2 :: cs) x with
      | none => none
      | some child2 => some (.dir m (setEntry c child2 es))

/-- Unlink the file or the empty directory at the path `p` below `n`. -/
def remove (now : Str) : Node → List Str → Option Node
  | _, [] => none
  | .file _ _ _, _ :: _ => none
  | .dir _ es, [c] =>
    match find c es with
    | none => none
    | some (.dir _ (_ :: _)) => none
    | some _ => some (.dir now (removeEntry c es))
  | .dir m es, c :: c2 :: cs =>
    match find c es with
    | none => none
    | some child =>
      match remove now child (c2 :: cs) with
      | none => none
      | some child2 => some (.dir m (setEntry c child2 es))

/-- Create the directory at the path `p` below `n` with every missing parent;
fails, creating nothing, when an element of the path is a regular file. -/
def mkdirAll (now : Str) : Node → List Str → Option Node
  | .file _ _ _, _ => none
  | .dir m es, [] => some (.dir m es)
  | .dir m es, c :: cs =>
    match find c es with
    | some child =>
      match mkdirAll now child cs with
      | none => none
      | some child2 => some (.dir m (setEntry c child2 es))
    | none =>
      match mkdirAll now (.dir now []) cs with
      | none => none
      | some child2 => some (.dir now (setEntry c child2 es))

end Node

/-! ## The state an exchange runs in -/

/-- The filesystem, the process and the channels of one exchange.

* `fs` is the root directory `/`; `cwd` holds the elements of the working
  directory, `none` when it cannot be determined (`os.Getwd` fails);
* `now` is the current time as `ModTime().String()` renders it and `free` the
  number of bytes the disk still accepts;
* `inbound` holds the frames not yet received from `requestChannel`, and
  `inboundClosed` tells whether the channel is closed once they are consumed
  (otherwise a further receive never completes);
* `response` holds the frames sent on `responseChannel`, oldest first, and
  `closeSignals` the values sent on `closeChannel`. -/
structure World where
  fs : Node
  cwd : Option (List Str)
  now : Str
  free : Nat
  inbound : List Frame
  inboundClosed : Bool
  response : List Frame
  closeSignals : List Bool

/-- What running a piece of the program from a state gives: a normal return,
a runtime panic, a goroutine that never returns (blocked on a receive or
spinning), or a model recursion that ran out of fuel. -/
inductive Res (α : Type) where
  | ok (a : α) (w : World)
  | panicked (msg : Str) (w : World)
  | hang (w : World)
  | outOfFuel

/-- Sequencing: continue with `k` after a normal return. -/
def Res.andThen {α β : Type} (r : Res α) (k : α → World → Res β) : Res β :=
  match r with
  | .ok a w => k a w
  | .panicked msg w => .panicked msg w
  | .hang w => .hang w
  | .outOfFuel => .outOfFuel

/-- `responseChannel <- f`. -/
def send (w : World) (f : Frame) : World := { w with response := w.response ++ [f] }

/-- `buffer, ok := <-requestChannel`: `none` when the receive never completes,
`(none, _)` when the channel is closed (`ok` is false, `buffer` is nil). -/
def recv (w : World) : Option (Option Frame × World) :=
  match w.inbound with
  | buffer :: rest => some (some buffer, { w with inbound := rest })
  | [] => if w.inboundClosed then some (none, w) else none

/-! ## packages os and io/ioutil -/

/-- Byte-wise lexicographic order on names, the order `ioutil.ReadDir` sorts in. -/
def nameLe : Str → Str → Bool
  | [], _ => true
  | _ :: _, [] => false
  | a :: as, b :: bs => if a = b then nameLe as bs else decide (a.toNat < b.toNat)

namespace os

/-- `os.Getwd`. -/
def Getwd (w : World) : Option Str :=
  w.cwd.map (fun es => '/' :: strings.Join es ['/'])

/-- The path elements, from the root, of the file a path names; `none` for the
empty path and for a relative path when there is no working directory. -/
def resolve (w : World) (path : Str) : Option (List Str) :=
  if path = [] then none
  else
    match filepath.Abs (Getwd w) path with
    | .error _ => none
    | .ok a => some (filepath.cleanElems true a)

/-- `os.Stat`: the node at the path, `none` for the error. -/
def Stat (w : World) (name : Str) : Option Node :=
  match resolve w name with
  | none => none
  | some p => w.fs.walk p

/-- `os.Open` followed by the reads to the end of the file: the bytes they
deliver, `none` when the file cannot be opened.  Reading a directory delivers
nothing. -/
def Open (w : World) (name : Str) : Option Str :=
  match Stat w name with
  | some (.file content _ true) => some content
  | some (.dir _ _) => some []
  | _ => none

/-- `os.Create`: truncate the file at the path or create it empty; the result
is the open file, as the path elements of the file, and the new state. -/
def Create (w : World) (name : Str) : Option (List Str × World) :=
  match resolve w name with
  | none => none
  | some p =>
    match w.fs.walk p with
    | some (.dir _ _) => none
    | some (.file _ _ readable) =>
      match w.fs.put w.now p (.file [] w.now readable) with
      | none => none
      | some fs2 => some (p, { w with fs := fs2 })
    | none =>
      match w.fs.put w.now p (.file [] w.now true) with
      | none => none
      | some fs2 => some (p, { w with fs := fs2 })

/-- `f.Write(buffer)`: append the bytes the disk still accepts; the flag tells
whether all of them were written (no error). -/
def Write (w : World) (f : List Str) (buffer : Str) : Bool × World :=
  match w.fs.walk f with
  | some (.file content _ readable) =>
    let n := min buffer.length w.free
    match w.fs.put w.now f (.file (content ++ buffer.take n) w.now readable) with
    | none => (false, w)
    | some fs2 => (decide (buffer.length ≤ w.free), { w with fs := fs2, free := w.free - n })
  | _ => (false, w)

/-- `os.Remove`: `none` for the error. -/
def Remove (w : World) (name : Str) : Option World :=
  match resolve w name with
  | none => none
  | some p =>
    match w.fs.remove w.now p with
    | none => none
    | some fs2 => some { w with fs := fs2 }

/-- `os.MkdirAll`, whose error the program ignores: the state afterwards. -/
def MkdirAll (w : World) (path : Str) : World :=
  match resolve w path with
  | none => w
  | some p =>
    match w.fs.mkdirAll w.now p with
    | none => w
    | some fs2 => { w with fs := fs2 }

end os

namespace ioutil

/-- `ioutil.ReadDir`: the entries of the directory sorted by name, none of them
when the path is not a directory that can be read (the callers ignore the
error). -/
def ReadDir (w : World) (dirname : Str) : List (Str × Node) :=
  match os.Stat w dirname with
  | some (.dir _ es) => es.insertionSort (fun a b => nameLe a.1 b.1 = true)
  | _ => []

end ioutil

/-! ## package net/url -/

namespace url

/-- The decoded form values: each key with its values in order of appearance. -/
abbrev Values := List (Str × List Str)

/-- `m[key]`: the values of a key, nil when the key is absent. -/
def Values.get (m : Values) (key : Str) : List Str :=
  match m with
  | [] => []
  | (k, vs) :: rest => if k = key then vs else Values.get rest key

/-- `m[key] = append(m[key], value)`. -/
def Values.add (m : Values) (key value : Str) : Values :=
  match m with
  | [] => [(key, [value])]
  | (k, vs) :: rest => if k = key then (k, vs ++ [value]) :: rest else (k, vs) :: Values.add rest key value

/-- The value of a hexadecimal digit. -/
def unhex (c : Char) : Option Nat :=
  if 48 ≤ c.toNat ∧ c.toNat ≤ 57 then some (c.toNat - 48)
  else if 97 ≤ c.toNat ∧ c.toNat ≤ 102 then some (c.toNat - 97 + 10)
  else if 65 ≤ c.toNat ∧ c.toNat ≤ 70 then some (c.toNat - 65 + 10)
  else none

/-- `url.QueryUnescape`: `%XX` becomes the byte `XX`, `+` a space; `none` for a
percent sign that two hexadecimal digits do not follow. -/
def QueryUnescape : Str → Option Str
  | [] => some []
  | c :: rest =>
    if c = '%' then
      match rest with
      | a :: b :: rest2 =>
        match unhex a, unhex b, QueryUnescape rest2 with
        | some x, some y, some s => some (Char.ofNat (16 * x + y) :: s)
        | _, _, _ => none
      | _ => none
    else
      match QueryUnescape rest with
      | none => none
      | some s => some ((if c = '+' then ' ' else c) :: s)

/-- `strings.Cut(s, sep)` for a separator of one byte. -/
def cut (s : Str) (sep : Char) : Str × Str :=
  match s with
  | [] => ([], [])
  | c :: cs => if c = sep then ([], cs) else ((cut cs sep).1.cons c, (cut cs sep).2)

/-- The loop of `url.ParseQuery` over the `&`-separated settings of the query:
an empty setting is skipped, a setting with a semicolon or a bad escape is an
error (the caller drops the values when there is one). -/
def parseSettings : List Str → Values → Except Str Values
  | [], m => .ok m
  | key :: rest, m =>
    if ';' ∈ key then .error "invalid semicolon separator in query".toList
    else if key = [] then parseSettings rest m
    else
      match QueryUnescape (cut key '=').1, QueryUnescape (cut key '=').2 with
      | some k, some v => parseSettings rest (Values.add m k v)
      | _, _ => .error "invalid URL escape".toList

/-- `url.ParseQuery`, as Go 1.17 and later have it (a semicolon is an error,
not a separator). -/
def ParseQuery (query : Str) : Except Str Values :=
  parseSettings (strings.Split query '&') []

end url

/-! ## Declarations of the package that live outside client.go -/

/-- The frame codec and buffer size that client.go uses and another file of the
package declares, the MIME table of the system behind `mime.TypeByExtension`,
the value `RunClient` stores in the package variable `rootPath` before the
first exchange runs, and the order in which `range` goes over the entries of a
map literal, which Go leaves open: `rangeOrder` rearranges the entries as
written. -/
structure Config where
  DELIMITERBUFFER : Frame
  IsDelimiter : Frame → Bool
  IntToBytes : Int → Frame
  BUFFER_SIZE : Nat
  TypeByExtension : Str → Str
  rootPath : Str
  rangeOrder : List (Str × Str) → List (Str × Str)
  rangeOrder_perm : ∀ headers, (rangeOrder headers).Perm headers

/-! ## Frame helpers (client.go 105-139) -/

/-- `statusCodeBuffer`. -/
def statusCodeBuffer (cfg : Config) (code : Int) : Frame := cfg.IntToBytes code

/-- `headerBuffer`: one line `Name: value` and a newline per header, in the
order the map is ranged over, then the last byte cut off.  Cutting the last
byte of an empty buffer is the slice `bytes[:-1]`, a runtime panic. -/
def headerBuffer (headers : List (Str × Str)) : Except Str Frame :=
  let bytes := (headers.map (fun hv => hv.1 ++ ": ".toList ++ hv.2 ++ "\n".toList)).flatten
  if bytes.length = 0 then .error "slice bounds out of range [:-1]".toList
  else .ok (bytes.take (bytes.length - 1))

/-- `responseChannel <- headerBuffer(headers)` for the map literal `headers`. -/
def sendHeaders (cfg : Config) (w : World) (headers : List (Str × Str)) : Res Unit :=
  match headerBuffer (cfg.rangeOrder headers) with
  | .error msg => .panicked msg w
  | .ok buffer => .ok () (send w buffer)

/-- `sendError`. -/
def sendError (cfg : Config) (w : World) (err : HttpError) (withMessageInBody : Bool) :
    Res Unit :=
  let w1 := send w (statusCodeBuffer cfg err.StatusCode)
  if withMessageInBody then
    (sendHeaders cfg w1 [("Content-Type".toList, "text/plain".toList)]).andThen fun _ w2 =>
      .ok () (send w2 err.Error)
  else
    sendHeaders cfg w1 [("Content-Length".toList, "0".toList)]

/-- The loop of `dropUntilDelimiter` over the frames still to come: it ends
after the first delimiter, or when the channel is closed. -/
def dropLoop (cfg : Config) (w : World) : List Frame → Res Unit
  | [] =>
    if w.inboundClosed then .ok () { w with inbound := [] }
    else .hang { w with inbound := [] }
  | buffer :: rest =>
    if cfg.IsDelimiter buffer then .ok () { w with inbound := rest }
    else dropLoop cfg w rest

/-- `dropUntilDelimiter`. -/
def dropUntilDelimiter (cfg : Config) (w : World) : Res Unit :=
  dropLoop cfg w w.inbound

/-! ## GET and HEAD (client.go 141-210) -/

/-- The loop over the entries of a directory in `handleGet`. -/
def listFiles : List (Str × Node) → World → Res Unit
  | [], w => .ok () w
  | (name, f) :: rest, w =>
    match name with
    | [] => .panicked "index out of range [0]".toList w
    | c :: _ =>
      if c = '.' then listFiles rest w
      else if f.IsDir then listFiles rest (send w (name ++ "/\n".toList))
      else listFiles rest (send w (name ++ "\n".toList))

/-- The loop that reads a file in buffers of `size` bytes: the buffers it
sends, given the bytes not yet read.  `fuel` bounds the number of reads. -/
def readFrames (size : Nat) : Nat → Str → List Frame
  | 0, _ => []
  | fuel + 1, rest =>
    let buffer := rest.take size
    if buffer.length = 0 then []
    else buffer :: readFrames size fuel (rest.drop size)

/-- `handleGet`. -/
def handleGet (cfg : Config) (path : Str) (w : World) : Res (Option HttpError) :=
  (dropUntilDelimiter cfg w).andThen fun _ w =>
  match safePath (os.Getwd w) cfg.rootPath path with
  | .error err => .ok (some err) w
  | .ok sp =>
    match os.Stat w sp with
    | none => .ok (some (NewHttpError 404 "Not found".toList)) w
    | some stat =>
      let w := send w (statusCodeBuffer cfg 200)
      if stat.IsDir then
        (sendHeaders cfg w [("Content-Type".toList, "text/plain".toList)]).andThen fun _ w =>
        (listFiles (ioutil.ReadDir w sp) w).andThen fun _ w =>
        .ok none w
      else
        let mimeType := cfg.TypeByExtension (filepath.Ext sp)
        let mimeType := if mimeType = [] then "application/octet-stream".toList else mimeType
        (sendHeaders cfg w [("Content-Type".toList, mimeType), ("ETag".toList, stat.ModTime)]).andThen
          fun _ w =>
        match os.Open w sp with
        | none => .ok (some (NewHttpError 500 "Could not open file".toList)) w
        | some content =>
          .ok none ((readFrames cfg.BUFFER_SIZE content.length content).foldl send w)

/-- `handleHead`. -/
def handleHead (cfg : Config) (path : Str) (w : World) : Res (Option HttpError) :=
  let r := safePath (os.Getwd w) cfg.rootPath path
  (dropUntilDelimiter cfg w).andThen fun _ w =>
  match r with
  | .error err => .ok (some err) w
  | .ok sp =>
    match os.Stat w sp with
    | none => .ok (some (NewHttpError 404 "Not found".toList)) w
    | some stat =>
      let w := send w (statusCodeBuffer cfg 200)
      (sendHeaders cfg w [("ETag".toList, stat.ModTime), ("Content-Length".toList, "0".toList)]).andThen
        fun _ w =>
      .ok none w

/-! ## PUT and DELETE (client.go 212-270) -/

/-- The receive loop of `handlePut` on the open file `f`, over the frames still
to come: `none` is returned when the loop ends at the delimiter, the error
when a write fails.  A closed channel delivers nil buffers for ever. -/
def writeBody (cfg : Config) (f : List Str) : List Frame → World → Res (Option HttpError)
  | [], w =>
    if w.inboundClosed && cfg.IsDelimiter [] then .ok none { w with inbound := [] }
    else .hang { w with inbound := [] }
  | buffer :: rest, w =>
    if cfg.IsDelimiter buffer then .ok none { w with inbound := rest }
    else
      match os.Write w f buffer with
      | (true, w2) => writeBody cfg f rest w2
      | (false, w2) =>
        (dropUntilDelimiter cfg { w2 with inbound := rest }).andThen fun _ w3 =>
        .ok (some (NewHttpError 500 "Could not write to file".toList)) w3

/-- `handlePut`. -/
def handlePut (cfg : Config) (path : Str) (w : World) : Res (Option HttpError) :=
  match safePath (os.Getwd w) cfg.rootPath path with
  | .error err =>
    (dropUntilDelimiter cfg w).andThen fun _ w => .ok (some err) w
  | .ok sp =>
    let dir := filepath.Base sp
    let w := os.MkdirAll w dir
    match os.Create w sp with
    | none =>
      (dropUntilDelimiter cfg w).andThen fun _ w =>
      .ok (some (NewHttpError 500 "Could not create file".toList)) w
    | some (f, w) =>
      (writeBody cfg f w.inbound w).andThen fun err w =>
      match err with
      | some e => .ok (some e) w
      | none =>
        match os.Stat w sp with
        | none => .panicked "invalid memory address or nil pointer dereference".toList w
        | some stat =>
          let w := send w (statusCodeBuffer cfg 200)
          (sendHeaders cfg w [("Content-Type".toList, "text/plain".toList),
            ("ETag".toList, stat.ModTime)]).andThen fun _ w =>
          .ok none (send w "OK".toList)

/-- `handleDelete`. -/
def handleDelete (cfg : Config) (path : Str) (w : World) : Res (Option HttpError) :=
  let r := safePath (os.Getwd w) cfg.rootPath path
  (dropUntilDelimiter cfg w).andThen fun _ w =>
  match r with
  | .error err => .ok (some err) w
  | .ok sp =>
    match os.Stat w sp with
    | none => .ok (some (NewHttpError 404 "Not found".toList)) w
    | some _ =>
      match os.Remove w sp with
      | none => .ok (some (NewHttpError 500 "Could not delete".toList)) w
      | some w =>
        let w := send w (statusCodeBuffer cfg 200)
        (sendHeaders cfg w [("Content-Type".toList, "text/plain".toList)]).andThen fun _ w =>
        .ok none (send w "OK".toList)

/-! ## POST (client.go 272-327) -/

/-- The loop of `walkDirectory` over the entries of one directory; `recurse` is
the recursive call of `walkDirectory` on a subdirectory. -/
def walkFiles (recurse : Str → World → Res Unit) (path : Str) :
    List (Str × Node) → World → Res Unit
  | [], w => .ok () w
  | (name, f) :: rest, w =>
    match name with
    | [] => .panicked "index out of range [0]".toList w
    | c :: _ =>
      if c = '.' then walkFiles recurse path rest w
      else if f.IsDir then
        (recurse (filepath.Join [path, name]) w).andThen fun _ w2 =>
        walkFiles recurse path rest w2
      else
        walkFiles recurse path rest
          (send w ('/' :: filepath.Join [path, name] ++ "\n".toList))

/-- `walkDirectory`; `fuel` bounds the depth of the recursion. -/
def walkDirectory (root : Str) : Nat → Str → World → Res Unit
  | 0, _, _ => .outOfFuel
  | fuel + 1, path, w =>
    walkFiles (walkDirectory root fuel) path (ioutil.ReadDir w (filepath.Join [root, path])) w

/-- The loop of `readWholeBody` over the frames still to come, with the bytes
gathered so far. -/
def readLoop (cfg : Config) (w : World) : List Frame → Str → Res Str
  | [], byteBuffer =>
    if w.inboundClosed && cfg.IsDelimiter [] then .ok byteBuffer { w with inbound := [] }
    else .hang { w with inbound := [] }
  | buffer :: rest, byteBuffer =>
    if cfg.IsDelimiter buffer then .ok byteBuffer { w with inbound := rest }
    else readLoop cfg w rest (byteBuffer ++ buffer)

/-- `readWholeBody`. -/
def readWholeBody (cfg : Config) (w : World) : Res Str :=
  readLoop cfg w w.inbound []

/-- `handlePost`; `fuel` is passed to `walkDirectory`. -/
def handlePost (cfg : Config) (fuel : Nat) (path : Str) (w : World) : Res (Option HttpError) :=
  let r := safePath (os.Getwd w) cfg.rootPath path
  (readWholeBody cfg w).andThen fun body w =>
  match r with
  | .error err => .ok (some err) w
  | .ok sp =>
    match os.Stat w sp with
    | none => .ok (some (NewHttpError 404 "Not found".toList)) w
    | some _ =>
      match url.ParseQuery body with
      | .error _ =>
        .ok (some (NewHttpError 500 "Could not parse body as HTTP post".toList)) w
      | .ok queryValues =>
        match url.Values.get queryValues "action".toList with
        | [] => .panicked "index out of range [0] with length 0".toList w
        | action :: _ =>
          if action = "filelist".toList then
            let w := send w (statusCodeBuffer cfg 200)
            (sendHeaders cfg w [("Content-Type".toList, "text/plain".toList)]).andThen fun _ w =>
            (walkDirectory sp fuel [] w).andThen fun _ w =>
            .ok none w
          else
            .ok (some (NewHttpError 501 "No such action".toList)) w

/-! ## The exchange handler (client.go 72-103) -/

/-- The end of `handleRequest`: the error response if the handler returned an
error, the delimiter, the completion signal. -/
def finishRequest (cfg : Config) (method : Str) (err : Option HttpError) (w : World) :
    Res Unit :=
  let sent : Res Unit :=
    match err with
    | some e => sendError cfg w e (method != "HEAD".toList)
    | none => .ok () w
  sent.andThen fun _ w =>
  let w := send w cfg.DELIMITERBUFFER
  .ok () { w with closeSignals := w.closeSignals ++ [true] }

/-- `handleRequest`; `fuel` is passed to `handlePost`. -/
def handleRequest (cfg : Config) (fuel : Nat) (w : World) : Res Unit :=
  match recv w with
  | none => .hang w
  | some (none, w) => .ok () w
  | some (some commandBuffer, w) =>
    match recv w with
    | none => .hang w
    | some (none, w) => .ok () w
    | some (some _, w) =>
      let commandParts := strings.Split commandBuffer ' '
      match commandParts[0]? with
      | none => .panicked "index out of range [0]".toList w
      | some method =>
        let arg (handler : Str → World → Res (Option HttpError)) : Res (Option HttpError) :=
          match commandParts[1]? with
          | none => .panicked "index out of range [1] with length 1".toList w
          | some path => handler path w
        let result : Res (Option HttpError) :=
          if method = "GET".toList then arg (handleGet cfg)
          else if method = "HEAD".toList then arg (handleHead cfg)
          else if method = "PUT".toList then arg (handlePut cfg)
          else if method = "DELETE".toList then arg (handleDelete cfg)
          else if method = "POST".toList then arg (handlePost cfg fuel)
          else .ok none w
        result.andThen fun err w => finishRequest cfg method err w

/-! ## A concrete configuration and filesystem -/

/-- Modelled from the spec: the frame codec that client.go uses and that another
file of the package declares (`DELIMITERBUFFER`, `IsDelimiter`, `IntToBytes`,
`BUFFER_SIZE`).  The delimiter is a reserved value recognised by its content,
so that an empty chunk is not a delimiter; an integer is encoded in a fixed
width, in binary.  The reserved bytes, the width of four bytes and the buffer
size of four bytes are sample values, as are the one line of the MIME table,
the root `/srv/data` and the order of the map literals for `range`. -/
def sampleConfig : Config where
  DELIMITERBUFFER := "\x00--delimiter--\x00".toList
  IsDelimiter := fun buffer => decide (buffer = "\x00--delimiter--\x00".toList)
  IntToBytes := fun n =>
    [n.toNat / 16777216 % 256, n.toNat / 65536 % 256, n.toNat / 256 % 256, n.toNat % 256].map
      Char.ofNat
  BUFFER_SIZE := 4
  TypeByExtension := fun ext =>
    if ext = ".txt".toList then "text/plain; charset=utf-8".toList else []
  rootPath := "/srv/data".toList
  rangeOrder := fun headers => headers
  rangeOrder_perm := fun headers => List.Perm.refl headers

/-- A filesystem with the root `/srv/data` of the scenario of the spec, a
sibling `/srv/data2`, a hidden directory and a file that cannot be read. -/
def sampleFs : Node :=
  .dir "t0".toList [
    ("etc".toList, .dir "t0".toList [("passwd".toList, .file "root:x".toList "t0".toList true)]),
    ("home".toList, .dir "t0".toList [("u".toList, .dir "t0".toList [])]),
    ("srv".toList, .dir "t0".toList [
      ("data".toList, .dir "t1".toList [
        (".git".toList, .dir "t1".toList [("config".toList, .file "[core]".toList "t1".toList true)]),
        ("locked.bin".toList, .file "secret".toList "t2".toList false),
        ("notes.txt".toList, .file "hello".toList "t3".toList true),
        ("sub".toList, .dir "t1".toList [("a.txt".toList, .file "a".toList "t1".toList true)])]),
      ("data2".toList, .dir "t0".toList [("secret".toList, .file "s3cr3t".toList "t0".toList true)])])]

/-- The state of an exchange on `sampleFs` with working directory `/home/u`,
given the frames still to come on its request channel. -/
def sampleWorld (inbound : List Frame) : World where
  fs := sampleFs
  cwd := some ["home".toList, "u".toList]
  now := "t9".toList
  free := 1024
  inbound := inbound
  inboundClosed := false
  response := []
  closeSignals := []

/-- The value of the header `name` in a header block: the rest of the first
line that begins with `name: `. -/
def headerValue (name : Str) (block : Frame) : Option Str :=
  ((strings.Split block '\n').find? (fun line => (name ++ ": ".toList).isPrefixOf line)).map
    (fun line => line.drop (name.length + 2))

/-! ## The vocabulary of the statements -/

/-- The line of one header. -/
def headerLine (hv : Str × Str) : Str := hv.1 ++ ": ".toList ++ hv.2

/-- The header block `sendHeaders` writes for a map literal. -/
def headerBlock (cfg : Config) (headers : List (Str × Str)) : Frame :=
  match headerBuffer (cfg.rangeOrder headers) with
  | .ok buffer => buffer
  | .error _ => []

/-- The MIME type `handleGet` announces for the file at the path `sp`. -/
def mimeTypeOf (cfg : Config) (sp : Str) : Str :=
  if cfg.TypeByExtension (filepath.Ext sp) = [] then "application/octet-stream".toList
  else cfg.TypeByExtension (filepath.Ext sp)

/-- The frames `sendError` writes for an error: the status code, one header
block, and the message unless the method is HEAD. -/
def errorFrames (cfg : Config) (method : Str) (e : HttpError) : List Frame :=
  if method = "HEAD".toList then
    [statusCodeBuffer cfg e.StatusCode, "Content-Length: 0".toList]
  else
    [statusCodeBuffer cfg e.StatusCode, "Content-Type: text/plain".toList, e.Error]

/-- A path element that names a directory entry: not empty, not `.` or `..`,
without a slash. -/
def IsName (c : Str) : Prop := c ≠ [] ∧ c ≠ ['.'] ∧ c ≠ ['.', '.'] ∧ '/' ∉ c

instance (c : Str) : Decidable (IsName c) := by
  unfold IsName
  infer_instance

/-- The absolute path with the elements `cs`. -/
def absPath (cs : List Str) : Str := '/' :: strings.Join cs ['/']

/-- The relative path with the elements `cs`, empty when there are none. -/
def relPath (cs : List Str) : Str := strings.Join cs ['/']

/-- The state after a normal return, `w` otherwise. -/
def Res.world {α : Type} (r : Res α) (w : World) : World :=
  match r with
  | .ok _ w2 => w2
  | _ => w

/-- The exchange `PUT /new.txt` with the body `wor`, `ld` on the sample
filesystem. -/
def putNewWorld : World :=
  sampleWorld ["wor".toList, "ld".toList, sampleConfig.DELIMITERBUFFER]

/-- The exchange `GET /new.txt` that follows `putNewWorld`. -/
def getNewWorld : World :=
  { (handlePut sampleConfig "/new.txt".toList putNewWorld).world putNewWorld with
    inbound := [sampleConfig.DELIMITERBUFFER]
    response := [] }

/-- The number of directory levels of a node: 0 for a file, one more than the
deepest entry for a directory. -/
def Node.depth : Node → Nat
  | .file _ _ _ => 0
  | .dir _ es => 1 + depthEntries es
where
  /-- The depth of the deepest entry. -/
  depthEntries : List (Str × Node) → Nat
    | [] => 0
    | (_, x) :: rest => max (Node.depth x) (depthEntries rest)

/-- A tree as a filesystem holds it: in every directory the entries have names
(not empty, not `.` or `..`, without a slash) that differ from each other. -/
def Node.wf : Node → Bool
  | .file _ _ _ => true
  | .dir _ es => wfEntries es
where
  /-- The entries of a directory are well formed. -/
  wfEntries : List (Str × Node) → Bool
    | [] => true
    | (n, x) :: rest =>
      decide (IsName n) && (Node.find n rest).isNone && Node.wf x && wfEntries rest

/-- A path none of whose elements begins with a dot. -/
def Visible (p : List Str) : Prop := ∀ c ∈ p, c.head? ≠ some '.'

/-- The frame `walkDirectory` writes for the file at the relative path `p`. -/
def fileFrame (p : List Str) : Frame := '/' :: relPath p ++ "\n".toList

/-- The frame `f` reports a regular file below the directory `n`, itself at the
relative path `rel`, that is reached through visible names only. -/
def Listed (n : Node) (rel : List Str) (f : Frame) : Prop :=
  ∃ sub, sub ≠ [] ∧ Visible sub ∧
    (∃ content modTime readable, n.walk sub = some (.file content modTime readable)) ∧
    f = fileFrame (rel ++ sub)

/-- The frame `f` reports a file through the entry `e` of the directory at the
relative path `rel`: the entry is visible, and it is the file reported or a
directory below which the file is listed. -/
def ListedVia (e : Str × Node) (rel : List Str) (f : Frame) : Prop :=
  e.1.head? ≠ some '.' ∧
    ((e.2.IsDir = false ∧ f = fileFrame (rel ++ [e.1])) ∨
      (e.2.IsDir = true ∧ Listed e.2 (rel ++ [e.1]) f))

/-! ## Evaluations -/

/-- C2: with root `/srv/data` the path `../data2/secret` is accepted, and the
path returned is `/srv/data2/secret`, which is neither the root nor the root
followed by a separator. -/
theorem safePath_accepts_sibling_of_root :
    safePath (some "/home/u".toList) "/srv/data".toList "../data2/secret".toList
        = .ok "/srv/data2/secret".toList ∧
      "/srv/data2/secret".toList ≠ "/srv/data".toList ∧
      strings.HasPrefix "/srv/data2/secret".toList "/srv/data/".toList = false := by
  refine ⟨rfl, by decide, by decide⟩

/-- C4: on the command line `GET`, which has no path, `handleRequest` panics at
`commandParts[1]`: no frame has been written to the response channel, the
delimiter neither, and no completion signal has been sent. -/
theorem handleRequest_panics_without_path :
    ∃ msg w, handleRequest sampleConfig 8
        (sampleWorld ["GET".toList, [], sampleConfig.DELIMITERBUFFER]) = .panicked msg w ∧
      w.response = [] ∧ w.closeSignals = [] :=
  ⟨_, _, rfl, rfl, rfl⟩

/-- C5: a GET of `/locked.bin`, which `os.Stat` finds and `os.Open` cannot open:
`handleGet` returns the error after it has written the status 200 and a header
block, so the response of the exchange holds two status-code frames. -/
theorem handleGet_open_failure_after_status :
    ∃ w, handleRequest sampleConfig 8
        (sampleWorld ["GET /locked.bin".toList, [], sampleConfig.DELIMITERBUFFER]) = .ok () w ∧
      w.response =
        [statusCodeBuffer sampleConfig 200,
         "Content-Type: application/octet-stream\nETag: t2".toList,
         statusCodeBuffer sampleConfig 500,
         "Content-Type: text/plain".toList,
         "Could not open file".toList,
         sampleConfig.DELIMITERBUFFER] :=
  ⟨_, rfl, rfl⟩

/-- C8: a POST on the root whose body is empty, hence without an `action` field:
`handlePost` panics at `queryValues["action"][0]` and returns no error. -/
theorem handlePost_panics_without_action :
    url.ParseQuery [] = .ok [] ∧
      ∃ msg w, handlePost sampleConfig 8 "/".toList
        (sampleWorld [sampleConfig.DELIMITERBUFFER]) = .panicked msg w ∧ w.response = [] :=
  ⟨rfl, _, _, rfl, rfl⟩

/-- C10: on the empty header set `headerBuffer` returns no buffer: the slice
`bytes[:len(bytes)-1]` is out of range. -/
theorem headerBuffer_empty_panics :
    headerBuffer [] = .error "slice bounds out of range [:-1]".toList := rfl

/-! ## Lemmas on results and channels -/

theorem Res.andThen_eq_ok {α β : Type} (r : Res α) (k : α → World → Res β) (b : β) (w2 : World) :
    r.andThen k = .ok b w2 ↔ ∃ a w1, r = .ok a w1 ∧ k a w1 = .ok b w2 := by
  cases r with
  | ok a w =>
    simp only [Res.andThen]
    constructor
    · intro h
      exact ⟨a, w, rfl, h⟩
    · rintro ⟨a2, w1, h1, h2⟩
      cases h1
      exact h2
  | panicked msg w => simp [Res.andThen]
  | hang w => simp [Res.andThen]
  | outOfFuel => simp [Res.andThen]

theorem sendHeaders_eq_ok (cfg : Config) (w w2 : World) (hs : List (Str × Str)) (u : Unit) :
    sendHeaders cfg w hs = .ok u w2 ↔
      ∃ b, headerBuffer (cfg.rangeOrder hs) = .ok b ∧ w2 = send w b := by
  unfold sendHeaders
  cases h : headerBuffer (cfg.rangeOrder hs) <;> simp [eq_comm]

theorem dropLoop_delimited (cfg : Config) (w : World) (pre : List Frame) (d : Frame)
    (rest : List Frame) (hpre : ∀ f ∈ pre, cfg.IsDelimiter f = false)
    (hd : cfg.IsDelimiter d = true) :
    dropLoop cfg w (pre ++ d :: rest) = .ok () { w with inbound := rest } := by
  induction pre with
  | nil => simp [dropLoop, hd]
  | cons f pre ih =>
    have hf : cfg.IsDelimiter f = false := hpre f (by simp)
    have h := ih (fun g hg => hpre g (by simp [hg]))
    simp only [List.cons_append, dropLoop, hf]
    simpa using h

theorem readLoop_delimited (cfg : Config) (w : World) (pre : List Frame) (d : Frame)
    (rest : List Frame) (acc : Str) (hpre : ∀ f ∈ pre, cfg.IsDelimiter f = false)
    (hd : cfg.IsDelimiter d = true) :
    readLoop cfg w (pre ++ d :: rest) acc = .ok (acc ++ pre.flatten) { w with inbound := rest } := by
  induction pre generalizing acc with
  | nil => simp [readLoop, hd]
  | cons f pre ih =>
    have hf : cfg.IsDelimiter f = false := hpre f (by simp)
    have h := ih (acc ++ f) (fun g hg => hpre g (by simp [hg]))
    simp only [List.cons_append, readLoop, hf]
    simpa using h

/-! ## What the filesystem calls leave alone -/

theorem os.MkdirAll_frames (w : World) (path : Str) :
    (os.MkdirAll w path).inbound = w.inbound ∧ (os.MkdirAll w path).response = w.response ∧
      (os.MkdirAll w path).cwd = w.cwd ∧ (os.MkdirAll w path).inboundClosed = w.inboundClosed := by
  unfold os.MkdirAll
  split
  · simp
  · split <;> simp

theorem os.Create_frames (w w2 : World) (name : Str) (f : List Str)
    (h : os.Create w name = some (f, w2)) :
    w2.inbound = w.inbound ∧ w2.response = w.response ∧ w2.cwd = w.cwd ∧
      w2.inboundClosed = w.inboundClosed := by
  unfold os.Create at h
  split at h
  · simp at h
  · split at h
    · simp at h
    · split at h
      · simp at h
      · simp only [Option.some.injEq, Prod.mk.injEq] at h
        obtain ⟨-, rfl⟩ := h
        simp
    · split at h
      · simp at h
      · simp only [Option.some.injEq, Prod.mk.injEq] at h
        obtain ⟨-, rfl⟩ := h
        simp

theorem os.Write_frames (w : World) (f : List Str) (buffer : Str) :
    (os.Write w f buffer).2.inbound = w.inbound ∧ (os.Write w f buffer).2.response = w.response ∧
      (os.Write w f buffer).2.cwd = w.cwd ∧
      (os.Write w f buffer).2.inboundClosed = w.inboundClosed := by
  unfold os.Write
  split
  · dsimp only
    split <;> simp
  · simp

/-! ## Draining the request channel -/

theorem dropUntilDelimiter_delimited (cfg : Config) (w : World) (pre : List Frame) (d : Frame)
    (rest : List Frame) (hin : w.inbound = pre ++ d :: rest)
    (hpre : ∀ f ∈ pre, cfg.IsDelimiter f = false) (hd : cfg.IsDelimiter d = true) :
    dropUntilDelimiter cfg w = .ok () { w with inbound := rest } := by
  unfold dropUntilDelimiter
  rw [hin]
  exact dropLoop_delimited cfg w pre d rest hpre hd

theorem writeBody_inbound (cfg : Config) (f : List Str) (pre : List Frame) (d : Frame)
    (rest : List Frame) (hpre : ∀ g ∈ pre, cfg.IsDelimiter g = false)
    (hd : cfg.IsDelimiter d = true) (w : World) (x : Option HttpError) (w2 : World)
    (h : writeBody cfg f (pre ++ d :: rest) w = .ok x w2) : w2.inbound = rest := by
  induction pre generalizing w with
  | nil =>
    simp only [List.nil_append, writeBody, hd, if_true] at h
    cases h
    rfl
  | cons g pre ih =>
    have hg : cfg.IsDelimiter g = false := hpre g (by simp)
    have hpre2 : ∀ g2 ∈ pre, cfg.IsDelimiter g2 = false := fun g2 h2 => hpre g2 (by simp [h2])
    simp only [List.cons_append, writeBody, hg] at h
    cases hw : os.Write w f g with
    | mk okFlag w3 =>
      rw [hw] at h
      cases okFlag with
      | true => exact ih hpre2 w3 h
      | false =>
        simp only [Bool.false_eq_true, if_false] at h
        rw [dropUntilDelimiter_delimited cfg _ pre d rest rfl hpre2 hd] at h
        simp only [Res.andThen] at h
        cases h
        rfl

theorem Res.ok_andThen {α β : Type} (a : α) (w : World) (k : α → World → Res β) :
    (Res.ok a w).andThen k = k a w := rfl

theorem handleGet_inbound_on_error (cfg : Config) (path : Str) (w : World) (pre : List Frame)
    (d : Frame) (rest : List Frame) (hin : w.inbound = pre ++ d :: rest)
    (hpre : ∀ f ∈ pre, cfg.IsDelimiter f = false) (hd : cfg.IsDelimiter d = true)
    (e : HttpError) (w2 : World) (h : handleGet cfg path w = .ok (some e) w2) :
    w2.inbound = rest := by
  unfold handleGet at h
  rw [dropUntilDelimiter_delimited cfg w pre d rest hin hpre hd] at h
  simp only [Res.ok_andThen] at h
  split at h
  · cases h
    rfl
  · split at h
    · cases h
      rfl
    · split at h
      · rw [Res.andThen_eq_ok] at h
        obtain ⟨_, w3, _, h3⟩ := h
        rw [Res.andThen_eq_ok] at h3
        obtain ⟨_, w4, _, h4⟩ := h3
        cases h4
      · rw [Res.andThen_eq_ok] at h
        obtain ⟨_, w3, h3, h4⟩ := h
        rw [sendHeaders_eq_ok] at h3
        obtain ⟨b, -, rfl⟩ := h3
        split at h4
        · cases h4
          rfl
        · cases h4

theorem handleHead_inbound_on_error (cfg : Config) (path : Str) (w : World) (pre : List Frame)
    (d : Frame) (rest : List Frame) (hin : w.inbound = pre ++ d :: rest)
    (hpre : ∀ f ∈ pre, cfg.IsDelimiter f = false) (hd : cfg.IsDelimiter d = true)
    (e : HttpError) (w2 : World) (h : handleHead cfg path w = .ok (some e) w2) :
    w2.inbound = rest := by
  unfold handleHead at h
  rw [dropUntilDelimiter_delimited cfg w pre d rest hin hpre hd] at h
  simp only [Res.ok_andThen] at h
  split at h
  · cases h
    rfl
  · split at h
    · cases h
      rfl
    · rw [Res.andThen_eq_ok] at h
      obtain ⟨_, w3, _, h3⟩ := h
      cases h3

theorem handleDelete_inbound_on_error (cfg : Config) (path : Str) (w : World) (pre : List Frame)
    (d : Frame) (rest : List Frame) (hin : w.inbound = pre ++ d :: rest)
    (hpre : ∀ f ∈ pre, cfg.IsDelimiter f = false) (hd : cfg.IsDelimiter d = true)
    (e : HttpError) (w2 : World) (h : handleDelete cfg path w = .ok (some e) w2) :
    w2.inbound = rest := by
  unfold handleDelete at h
  rw [dropUntilDelimiter_delimited cfg w pre d rest hin hpre hd] at h
  simp only [Res.ok_andThen] at h
  split at h
  · cases h
    rfl
  · split at h
    · cases h
      rfl
    · split at h
      · cases h
        rfl
      · rw [Res.andThen_eq_ok] at h
        obtain ⟨_, w3, _, h3⟩ := h
        cases h3

theorem handlePut_inbound_on_error (cfg : Config) (path : Str) (w : World) (pre : List Frame)
    (d : Frame) (rest : List Frame) (hin : w.inbound = pre ++ d :: rest)
    (hpre : ∀ f ∈ pre, cfg.IsDelimiter f = false) (hd : cfg.IsDelimiter d = true)
    (e : HttpError) (w2 : World) (h : handlePut cfg path w = .ok (some e) w2) :
    w2.inbound = rest := by
  unfold handlePut at h
  split at h
  · rw [dropUntilDelimiter_delimited cfg w pre d rest hin hpre hd] at h
    simp only [Res.ok_andThen] at h
    cases h
    rfl
  · dsimp only at h
    have hmk := (os.MkdirAll_frames w (filepath.Base ‹Str›)).1
    split at h
    · rw [dropUntilDelimiter_delimited cfg _ pre d rest (hmk.trans hin) hpre hd] at h
      simp only [Res.ok_andThen] at h
      cases h
      rfl
    · rename_i f w3 hcreate
      have hc := (os.Create_frames _ _ _ _ hcreate).1
      rw [hc, hmk, hin, Res.andThen_eq_ok] at h
      obtain ⟨err, w4, h4, h5⟩ := h
      have hw4 := writeBody_inbound cfg f pre d rest hpre hd w3 err w4 h4
      split at h5
      · cases h5
        exact hw4
      · split at h5
        · cases h5
        · rw [Res.andThen_eq_ok] at h5
          obtain ⟨_, w5, _, h6⟩ := h5
          cases h6

theorem handlePost_inbound_on_error (cfg : Config) (fuel : Nat) (path : Str) (w : World)
    (pre : List Frame) (d : Frame) (rest : List Frame) (hin : w.inbound = pre ++ d :: rest)
    (hpre : ∀ f ∈ pre, cfg.IsDelimiter f = false) (hd : cfg.IsDelimiter d = true)
    (e : HttpError) (w2 : World) (h : handlePost cfg fuel path w = .ok (some e) w2) :
    w2.inbound = rest := by
  unfold handlePost readWholeBody at h
  rw [hin, readLoop_delimited cfg w pre d rest [] hpre hd] at h
  simp only [Res.ok_andThen] at h
  split at h
  · cases h
    rfl
  · split at h
    · cases h
      rfl
    · split at h
      · cases h
        rfl
      · split at h
        · cases h
        · split at h
          · rw [Res.andThen_eq_ok] at h
            obtain ⟨_, w3, _, h3⟩ := h
            rw [Res.andThen_eq_ok] at h3
            obtain ⟨_, w4, _, h4⟩ := h3
            cases h4
          · cases h
            rfl

/-- C9: when the frames still to come on the request channel are `pre`, then a
delimiter `d`, then `rest`, with no delimiter in `pre`, each of the five
handlers that returns an error has consumed exactly `pre` and `d`: the frames
left on the channel are `rest`. -/
theorem handlers_drain_body_on_error (cfg : Config) (fuel : Nat) (path : Str) (w : World)
    (pre : List Frame) (d : Frame) (rest : List Frame) (e : HttpError) (w2 : World)
    (hin : w.inbound = pre ++ d :: rest)
    (hpre : ∀ f ∈ pre, cfg.IsDelimiter f = false) (hd : cfg.IsDelimiter d = true) :
    (handleGet cfg path w = .ok (some e) w2 → w2.inbound = rest) ∧
      (handleHead cfg path w = .ok (some e) w2 → w2.inbound = rest) ∧
      (handlePut cfg path w = .ok (some e) w2 → w2.inbound = rest) ∧
      (handleDelete cfg path w = .ok (some e) w2 → w2.inbound = rest) ∧
      (handlePost cfg fuel path w = .ok (some e) w2 → w2.inbound = rest) :=
  ⟨handleGet_inbound_on_error cfg path w pre d rest hin hpre hd e w2,
    handleHead_inbound_on_error cfg path w pre d rest hin hpre hd e w2,
    handlePut_inbound_on_error cfg path w pre d rest hin hpre hd e w2,
    handleDelete_inbound_on_error cfg path w pre d rest hin hpre hd e w2,
    handlePost_inbound_on_error cfg fuel path w pre d rest hin hpre hd e w2⟩

/-- C9, witness of `handlers_drain_body_on_error`: a PUT of five bytes on a
disk that accepts three fails at the write, and the frame that follows the
delimiter is the one left on the channel. -/
theorem handlers_drain_body_on_error_witness :
    ∃ e w2,
      handlePut sampleConfig "/new.txt".toList
          { sampleWorld ["world".toList, sampleConfig.DELIMITERBUFFER, "next".toList] with
            free := 3 } = .ok (some e) w2 ∧
        e = NewHttpError 500 "Could not write to file".toList ∧
        w2.inbound = ["next".toList] :=
  ⟨_, _, rfl, rfl,
    (handlers_drain_body_on_error sampleConfig 8 "/new.txt".toList
      { sampleWorld ["world".toList, sampleConfig.DELIMITERBUFFER, "next".toList] with free := 3 }
      ["world".toList] sampleConfig.DELIMITERBUFFER ["next".toList] _ _ rfl
      (by decide) (by decide)).2.2.1 rfl⟩

/-! ## Header blocks -/

theorem flatten_lines (h : Str × Str) (hs : List (Str × Str)) :
    ((h :: hs).map (fun hv => hv.1 ++ ": ".toList ++ hv.2 ++ "\n".toList)).flatten
      = ['\n'].intercalate ((h :: hs).map headerLine) ++ ['\n'] := by
  induction hs generalizing h with
  | nil => simp [headerLine, List.intercalate]
  | cons h2 hs ih =>
    have := ih h2
    simp only [List.map_cons, List.flatten_cons] at this ⊢
    rw [this]
    simp [headerLine, List.intercalate, List.intersperse]

/-- A header set that is not empty gives the lines `Name: value` joined by a
newline, without a newline at the end. -/
theorem headerBuffer_cons (h : Str × Str) (hs : List (Str × Str)) :
    headerBuffer (h :: hs) = .ok (['\n'].intercalate ((h :: hs).map headerLine)) := by
  unfold headerBuffer
  rw [flatten_lines]
  simp

theorem headerBuffer_rangeOrder (cfg : Config) (h : Str × Str) (hs : List (Str × Str)) :
    headerBuffer (cfg.rangeOrder (h :: hs)) = .ok (headerBlock cfg (h :: hs)) := by
  unfold headerBlock
  cases hr : cfg.rangeOrder (h :: hs) with
  | nil =>
    have := (cfg.rangeOrder_perm (h :: hs)).length_eq
    rw [hr] at this
    simp at this
  | cons h2 hs2 => rw [headerBuffer_cons]

theorem sendHeaders_cons (cfg : Config) (w : World) (h : Str × Str) (hs : List (Str × Str)) :
    sendHeaders cfg w (h :: hs) = .ok () (send w (headerBlock cfg (h :: hs))) := by
  unfold sendHeaders
  rw [headerBuffer_rangeOrder]

theorem headerBlock_singleton (cfg : Config) (h : Str × Str) :
    headerBlock cfg [h] = headerLine h := by
  unfold headerBlock
  rw [List.perm_singleton.1 (cfg.rangeOrder_perm [h]), headerBuffer_cons]
  simp [List.intercalate, List.intersperse]

/-! ## GET and HEAD on a regular file -/

theorem os.Getwd_congr (w w2 : World) (hcwd : w2.cwd = w.cwd) : os.Getwd w2 = os.Getwd w := by
  simp [os.Getwd, hcwd]

theorem os.Stat_congr (w w2 : World) (name : Str) (hfs : w2.fs = w.fs) (hcwd : w2.cwd = w.cwd) :
    os.Stat w2 name = os.Stat w name := by
  simp [os.Stat, os.resolve, os.Getwd, hfs, hcwd]

theorem os.Open_send (w : World) (f : Frame) (name : Str) :
    os.Open (send w f) name = os.Open w name := rfl

theorem foldl_send_eq (fs : List Frame) (w : World) :
    fs.foldl send w = { w with response := w.response ++ fs } := by
  induction fs generalizing w with
  | nil => simp
  | cons f fs ih => simp [ih, send]

theorem os.Open_of_stat (w : World) (name content modTime : Str) (readable : Bool)
    (h : os.Stat w name = some (.file content modTime readable)) :
    os.Open w name = if readable then some content else none := by
  unfold os.Open
  rw [h]
  cases readable <;> rfl

/-- What `handleGet` does on a regular file: the status 200, the header block
with `Content-Type` and `ETag`, then the file in buffers, or the error
`Could not open file` when the file cannot be opened. -/
theorem handleGet_file (cfg : Config) (path sp : Str) (w : World) (content modTime : Str)
    (readable : Bool) (pre : List Frame) (d : Frame) (rest : List Frame)
    (hin : w.inbound = pre ++ d :: rest) (hpre : ∀ f ∈ pre, cfg.IsDelimiter f = false)
    (hd : cfg.IsDelimiter d = true)
    (hsafe : safePath (os.Getwd w) cfg.rootPath path = .ok sp)
    (hstat : os.Stat w sp = some (.file content modTime readable)) :
    handleGet cfg path w =
      .ok (if readable then none else some (NewHttpError 500 "Could not open file".toList))
        { w with
          inbound := rest
          response := w.response ++
            [statusCodeBuffer cfg 200,
              headerBlock cfg
                [("Content-Type".toList, mimeTypeOf cfg sp), ("ETag".toList, modTime)]] ++
            (if readable then readFrames cfg.BUFFER_SIZE content.length content else []) } := by
  have hsafe2 : safePath (os.Getwd { w with inbound := rest }) cfg.rootPath path = .ok sp := hsafe
  have hstat2 : os.Stat { w with inbound := rest } sp = some (.file content modTime readable) :=
    hstat
  unfold handleGet
  rw [dropUntilDelimiter_delimited cfg w pre d rest hin hpre hd]
  simp only [Res.ok_andThen]
  rw [hsafe2]
  simp only [hstat2, Node.IsDir, Node.ModTime, Bool.false_eq_true, if_false]
  rw [sendHeaders_cons]
  simp only [Res.ok_andThen]
  rw [os.Open_send, os.Open_send, os.Open_of_stat _ sp content modTime readable hstat2]
  cases readable
  · simp [send, mimeTypeOf]
  · simp [send, mimeTypeOf, foldl_send_eq]

/-- What `handleHead` does on a path that exists: the status 200 and the header
block with `ETag` and `Content-Length: 0`. -/
theorem handleHead_found (cfg : Config) (path sp : Str) (w : World) (stat : Node)
    (pre : List Frame) (d : Frame) (rest : List Frame)
    (hin : w.inbound = pre ++ d :: rest) (hpre : ∀ f ∈ pre, cfg.IsDelimiter f = false)
    (hd : cfg.IsDelimiter d = true)
    (hsafe : safePath (os.Getwd w) cfg.rootPath path = .ok sp)
    (hstat : os.Stat w sp = some stat) :
    handleHead cfg path w =
      .ok none
        { w with
          inbound := rest
          response := w.response ++
            [statusCodeBuffer cfg 200,
              headerBlock cfg
                [("ETag".toList, stat.ModTime), ("Content-Length".toList, "0".toList)]] } := by
  have hstat2 : os.Stat { w with inbound := rest } sp = some stat := hstat
  unfold handleHead
  rw [dropUntilDelimiter_delimited cfg w pre d rest hin hpre hd]
  simp only [Res.ok_andThen]
  rw [hsafe]
  simp only [hstat2]
  rw [sendHeaders_cons]
  simp [Res.ok_andThen, send]

/-- C6, as the code has it: on a path that resolves to a regular file, with the
same filesystem under both calls, `handleGet` and `handleHead` each write the
status 200 and one header block; the block of `handleGet` is what
`headerBuffer` makes of the headers `Content-Type` and `ETag`, the block of
`handleHead` what it makes of `ETag` and `Content-Length: 0`, without a
`Content-Type`, and the two `ETag` values are the same string, the
modification time of the file. -/
theorem get_head_same_etag (cfg : Config) (path sp : Str) (wg wh : World)
    (content modTime : Str) (readable : Bool)
    (preG : List Frame) (dG : Frame) (restG : List Frame)
    (preH : List Frame) (dH : Frame) (restH : List Frame)
    (hfs : wh.fs = wg.fs) (hcwd : wh.cwd = wg.cwd)
    (hinG : wg.inbound = preG ++ dG :: restG) (hpreG : ∀ f ∈ preG, cfg.IsDelimiter f = false)
    (hdG : cfg.IsDelimiter dG = true)
    (hinH : wh.inbound = preH ++ dH :: restH) (hpreH : ∀ f ∈ preH, cfg.IsDelimiter f = false)
    (hdH : cfg.IsDelimiter dH = true)
    (hsafe : safePath (os.Getwd wg) cfg.rootPath path = .ok sp)
    (hstat : os.Stat wg sp = some (.file content modTime readable)) :
    ∃ (mimeType : Str) (eg : Option HttpError) (wg2 wh2 : World) (body : List Frame)
      (blockG blockH : Frame),
      handleGet cfg path wg = .ok eg wg2 ∧
      wg2.response = wg.response ++ [statusCodeBuffer cfg 200, blockG] ++ body ∧
      headerBuffer (cfg.rangeOrder
        [("Content-Type".toList, mimeType), ("ETag".toList, modTime)]) = .ok blockG ∧
      handleHead cfg path wh = .ok none wh2 ∧
      wh2.response = wh.response ++ [statusCodeBuffer cfg 200, blockH] ∧
      headerBuffer (cfg.rangeOrder
        [("ETag".toList, modTime), ("Content-Length".toList, "0".toList)]) = .ok blockH := by
  have hsafeH : safePath (os.Getwd wh) cfg.rootPath path = .ok sp := by
    rw [os.Getwd_congr wg wh hcwd]
    exact hsafe
  have hstatH : os.Stat wh sp = some (.file content modTime readable) := by
    rw [os.Stat_congr wg wh sp hfs hcwd]
    exact hstat
  exact ⟨_, _, _, _, _, _, _,
    handleGet_file cfg path sp wg content modTime readable preG dG restG hinG hpreG hdG hsafe
      hstat, rfl, headerBuffer_rangeOrder cfg _ _,
    handleHead_found cfg path sp wh _ preH dH restH hinH hpreH hdH hsafeH hstatH, rfl,
    headerBuffer_rangeOrder cfg _ _⟩

/-- C6, the claim as stated fails: on `/notes.txt` the header block of
`handleGet` carries the `Content-Type` of the file and the header block of
`handleHead` carries no `Content-Type` at all. -/
theorem head_has_no_content_type :
    ∃ wg wh blockG blockH body,
      handleGet sampleConfig "/notes.txt".toList (sampleWorld [sampleConfig.DELIMITERBUFFER])
        = .ok none wg ∧
      wg.response = statusCodeBuffer sampleConfig 200 :: blockG :: body ∧
      handleHead sampleConfig "/notes.txt".toList (sampleWorld [sampleConfig.DELIMITERBUFFER])
        = .ok none wh ∧
      wh.response = [statusCodeBuffer sampleConfig 200, blockH] ∧
      headerValue "Content-Type".toList blockG = some "text/plain; charset=utf-8".toList ∧
      headerValue "Content-Type".toList blockH = none ∧
      headerValue "Content-Type".toList blockG ≠ headerValue "Content-Type".toList blockH :=
  ⟨_, _, _, _, _, rfl, rfl, rfl, rfl, rfl, rfl, by decide⟩

/-- C6, witness of `get_head_same_etag`, on `/notes.txt` of the sample
filesystem. -/
theorem get_head_same_etag_witness :
    ∃ (mimeType : Str) (eg : Option HttpError) (wg2 wh2 : World) (body : List Frame)
      (blockG blockH : Frame),
      handleGet sampleConfig "/notes.txt".toList (sampleWorld [sampleConfig.DELIMITERBUFFER])
        = .ok eg wg2 ∧
      wg2.response = (sampleWorld [sampleConfig.DELIMITERBUFFER]).response ++
        [statusCodeBuffer sampleConfig 200, blockG] ++ body ∧
      headerBuffer (sampleConfig.rangeOrder
        [("Content-Type".toList, mimeType), ("ETag".toList, "t3".toList)]) = .ok blockG ∧
      handleHead sampleConfig "/notes.txt".toList
        (sampleWorld ["ignored".toList, sampleConfig.DELIMITERBUFFER]) = .ok none wh2 ∧
      wh2.response = (sampleWorld ["ignored".toList, sampleConfig.DELIMITERBUFFER]).response ++
        [statusCodeBuffer sampleConfig 200, blockH] ∧
      headerBuffer (sampleConfig.rangeOrder
        [("ETag".toList, "t3".toList), ("Content-Length".toList, "0".toList)]) = .ok blockH :=
  get_head_same_etag sampleConfig "/notes.txt".toList "/srv/data/notes.txt".toList
    (sampleWorld [sampleConfig.DELIMITERBUFFER])
    (sampleWorld ["ignored".toList, sampleConfig.DELIMITERBUFFER])
    "hello".toList "t3".toList true
    [] sampleConfig.DELIMITERBUFFER [] ["ignored".toList] sampleConfig.DELIMITERBUFFER []
    rfl rfl rfl (by decide) (by decide) rfl (by decide) (by decide) rfl rfl

/-! ## Splitting and joining paths -/

theorem strings.Split_ne_nil (s : Str) (sep : Char) : strings.Split s sep ≠ [] := by
  induction s with
  | nil => simp [strings.Split]
  | cons c cs ih =>
    unfold strings.Split
    split
    · simp
    · split <;> simp

theorem strings.mem_Split (s : Str) (sep : Char) :
    ∀ piece ∈ strings.Split s sep, sep ∉ piece := by
  induction s with
  | nil => simp [strings.Split]
  | cons c cs ih =>
    unfold strings.Split
    split
    · intro piece hp
      rcases List.mem_cons.1 hp with rfl | hp
      · simp
      · exact ih piece hp
    · rename_i hc
      split
      · simp [Ne.symm hc]
      · rename_i piece pieces heq
        rw [heq] at ih
        intro q hq
        rcases List.mem_cons.1 hq with rfl | hq
        · have := ih piece (by simp)
          simp [Ne.symm hc, this]
        · exact ih q (by simp [hq])

theorem strings.Split_of_not_mem (s : Str) (sep : Char) (h : sep ∉ s) :
    strings.Split s sep = [s] := by
  induction s with
  | nil => rfl
  | cons c cs ih =>
    have hc : c ≠ sep := fun e => h (by simp [e])
    have hcs : sep ∉ cs := fun e => h (by simp [e])
    unfold strings.Split
    simp [hc, ih hcs]

theorem strings.Split_cons_of_ne (c sep : Char) (cs p : Str) (ps : List Str) (hc : c ≠ sep)
    (hs : strings.Split cs sep = p :: ps) : strings.Split (c :: cs) sep = (c :: p) :: ps := by
  conv_lhs => unfold strings.Split
  simp [hc, hs]

theorem strings.Split_cons_sep (sep : Char) (cs : Str) :
    strings.Split (sep :: cs) sep = [] :: strings.Split cs sep := by
  conv_lhs => unfold strings.Split
  simp

theorem strings.Split_append (a b : Str) (sep : Char) :
    strings.Split (a ++ sep :: b) sep = strings.Split a sep ++ strings.Split b sep := by
  induction a with
  | nil => simp [strings.Split]
  | cons c a ih =>
    by_cases hc : c = sep
    · subst hc
      rw [List.cons_append, strings.Split_cons_sep, strings.Split_cons_sep, ih]
      rfl
    · have hne := strings.Split_ne_nil a sep
      cases hs : strings.Split a sep with
      | nil => exact absurd hs hne
      | cons p ps =>
        rw [List.cons_append, strings.Split_cons_of_ne c sep a p ps hc hs,
          strings.Split_cons_of_ne c sep _ p (ps ++ strings.Split b sep) hc (by rw [ih, hs]; rfl)]
        rfl

theorem strings.Join_cons_cons (a b : Str) (cs : List Str) (sep : Str) :
    strings.Join (a :: b :: cs) sep = a ++ sep ++ strings.Join (b :: cs) sep := by
  simp [strings.Join, List.intercalate, List.intersperse]

theorem strings.Join_singleton (a : Str) (sep : Str) : strings.Join [a] sep = a := by
  simp [strings.Join, List.intercalate, List.intersperse]

theorem strings.Join_nil (sep : Str) : strings.Join [] sep = [] := rfl

theorem strings.Join_append_singleton (cs : List Str) (c : Str) (hcs : cs ≠ []) :
    strings.Join (cs ++ [c]) ['/'] = strings.Join cs ['/'] ++ '/' :: c := by
  induction cs with
  | nil => exact absurd rfl hcs
  | cons a cs ih =>
    cases cs with
    | nil => simp [strings.Join_cons_cons, strings.Join_singleton]
    | cons b cs =>
      have := ih (by simp)
      simp only [List.cons_append] at this ⊢
      rw [strings.Join_cons_cons, this, strings.Join_cons_cons]
      simp

theorem strings.Split_Join (cs : List Str) (hcs : cs ≠ []) (h : ∀ c ∈ cs, '/' ∉ c) :
    strings.Split (strings.Join cs ['/']) '/' = cs := by
  induction cs with
  | nil => exact absurd rfl hcs
  | cons a cs ih =>
    cases cs with
    | nil =>
      rw [strings.Join_singleton]
      exact strings.Split_of_not_mem a '/' (h a (by simp))
    | cons b cs =>
      rw [strings.Join_cons_cons]
      have hs : a ++ ['/'] ++ strings.Join (b :: cs) ['/'] = a ++ '/' :: strings.Join (b :: cs) ['/'] := by
        simp
      rw [hs, strings.Split_append, ih (by simp) (fun c hc => h c (by simp [hc])),
        strings.Split_of_not_mem a '/' (h a (by simp))]
      rfl

/-! ## Cleaning paths -/

theorem filepath.cleanElem_nil (rooted : Bool) (out : List Str) :
    filepath.cleanElem rooted out [] = out := by
  simp [filepath.cleanElem]

theorem filepath.cleanElem_name (rooted : Bool) (out : List Str) (c : Str) (hc : IsName c) :
    filepath.cleanElem rooted out c = out ++ [c] := by
  obtain ⟨h1, h2, h3, -⟩ := hc
  simp [filepath.cleanElem, h1, h2, h3]

theorem filepath.foldl_cleanElem_names (rooted : Bool) (cs : List Str)
    (h : ∀ c ∈ cs, c = [] ∨ IsName c) (out : List Str) :
    cs.foldl (filepath.cleanElem rooted) out = out ++ cs.filter (fun c => decide (c ≠ [])) := by
  induction cs generalizing out with
  | nil => simp
  | cons c cs ih =>
    have hcs : ∀ c2 ∈ cs, c2 = [] ∨ IsName c2 := fun c2 h2 => h c2 (by simp [h2])
    rcases h c (by simp) with rfl | hc
    · rw [List.foldl_cons, filepath.cleanElem_nil, ih hcs]
      simp
    · rw [List.foldl_cons, filepath.cleanElem_name rooted out c hc, ih hcs]
      simp [hc.1]

theorem filepath.cleanElem_rooted_names (out : List Str) (c : Str) (hout : ∀ x ∈ out, IsName x)
    (hc : '/' ∉ c) : ∀ x ∈ filepath.cleanElem true out c, IsName x := by
  by_cases h1 : c = []
  · simpa [filepath.cleanElem, h1] using hout
  by_cases h2 : c = ['.']
  · simpa [filepath.cleanElem, h2] using hout
  by_cases h3 : c = ['.', '.']
  · subst h3
    cases hgl : out.getLast? with
    | none => simpa [filepath.cleanElem, hgl] using hout
    | some l =>
      have hl : l ≠ ['.', '.'] := (hout l (List.mem_of_getLast?_eq_some hgl)).2.2.1
      intro x hx
      simp only [filepath.cleanElem, hgl, hl, if_false, List.cons_ne_nil, List.cons.injEq,
        and_false, reduceCtorEq] at hx
      exact hout x (List.mem_of_mem_dropLast hx)
  · rw [filepath.cleanElem_name true out c ⟨h1, h2, h3, hc⟩]
    intro x hx
    rcases List.mem_append.1 hx with hx | hx
    · exact hout x hx
    · simp only [List.mem_singleton] at hx
      subst hx
      exact ⟨h1, h2, h3, hc⟩

theorem filepath.foldl_cleanElem_rooted_names (cs : List Str) (hcs : ∀ c ∈ cs, '/' ∉ c)
    (out : List Str) (hout : ∀ x ∈ out, IsName x) :
    ∀ x ∈ cs.foldl (filepath.cleanElem true) out, IsName x := by
  induction cs generalizing out with
  | nil => simpa using hout
  | cons c cs ih =>
    rw [List.foldl_cons]
    exact ih (fun c2 h2 => hcs c2 (by simp [h2])) _
      (filepath.cleanElem_rooted_names out c hout (hcs c (by simp)))

/-- The elements kept of a rooted path are names. -/
theorem filepath.cleanElems_rooted_names (path : Str) :
    ∀ x ∈ filepath.cleanElems true path, IsName x :=
  filepath.foldl_cleanElem_rooted_names _ (strings.mem_Split path '/') [] (by simp)

theorem filepath.IsAbs_iff (path : Str) : filepath.IsAbs path = true ↔ ∃ r, path = '/' :: r := by
  cases path with
  | nil =>
    constructor
    · intro h
      cases h
    · rintro ⟨r, h⟩
      cases h
  | cons c r =>
    simp only [filepath.IsAbs, strings.HasPrefix, List.isPrefixOf_cons₂,
      List.isPrefixOf_nil_left, Bool.and_true, beq_iff_eq, List.cons.injEq, exists_and_left,
      exists_eq', and_true]
    exact eq_comm

/-- A rooted path cleans to the absolute path of the elements kept. -/
theorem filepath.Clean_of_IsAbs (path : Str) (h : filepath.IsAbs path = true) :
    filepath.Clean path = absPath (filepath.cleanElems true path) := by
  obtain ⟨r, rfl⟩ := (filepath.IsAbs_iff _).1 h
  unfold filepath.Clean
  rw [if_neg (List.cons_ne_nil _ _)]
  simp only [h, if_true, List.singleton_append, absPath]
  rw [if_neg (List.cons_ne_nil _ _)]

theorem filepath.IsAbs_absPath (cs : List Str) : filepath.IsAbs (absPath cs) = true :=
  (filepath.IsAbs_iff _).2 ⟨_, rfl⟩

theorem strings.Split_absPath (cs : List Str) (h : ∀ c ∈ cs, IsName c) :
    ∀ c ∈ strings.Split (absPath cs) '/', c = [] ∨ IsName c := by
  unfold absPath
  rw [strings.Split_cons_sep]
  cases cs with
  | nil => simp [strings.Join_nil, strings.Split]
  | cons a cs =>
    rw [strings.Split_Join _ (by simp) (fun c hc => (h c hc).2.2.2)]
    intro c hc
    rcases List.mem_cons.1 hc with rfl | hc
    · exact Or.inl rfl
    · exact Or.inr (h c hc)

theorem strings.filter_Split_absPath (cs : List Str) (h : ∀ c ∈ cs, IsName c) :
    (strings.Split (absPath cs) '/').filter (fun c => decide (c ≠ [])) = cs := by
  unfold absPath
  rw [strings.Split_cons_sep]
  cases cs with
  | nil => simp [strings.Join_nil, strings.Split]
  | cons a cs =>
    rw [strings.Split_Join _ (by simp) (fun c hc => (h c hc).2.2.2)]
    rw [List.filter_cons_of_neg (by simp), List.filter_eq_self]
    intro c hc
    simpa using (h c hc).1

/-- The elements of an absolute path of names are kept as they are. -/
theorem filepath.cleanElems_absPath (cs : List Str) (h : ∀ c ∈ cs, IsName c) :
    filepath.cleanElems true (absPath cs) = cs := by
  unfold filepath.cleanElems
  rw [filepath.foldl_cleanElem_names true _ (strings.Split_absPath cs h) [],
    strings.filter_Split_absPath cs h]
  rfl

theorem filepath.Clean_absPath (cs : List Str) (h : ∀ c ∈ cs, IsName c) :
    filepath.Clean (absPath cs) = absPath cs := by
  rw [filepath.Clean_of_IsAbs _ (filepath.IsAbs_absPath cs), filepath.cleanElems_absPath cs h]

theorem relPath_cons (a : Str) (rs : List Str) (ha : IsName a) :
    ∃ x r, relPath (a :: rs) = x :: r ∧ x ≠ '/' := by
  obtain ⟨h1, -, -, h4⟩ := ha
  cases a with
  | nil => exact absurd rfl h1
  | cons x a =>
    refine ⟨x, ?_, ?_, fun e => h4 (by simp [e])⟩
    · exact a ++ (match rs with | [] => [] | b :: cs => ['/'] ++ strings.Join (b :: cs) ['/'])
    · cases rs with
      | nil => simp [relPath, strings.Join_singleton]
      | cons b cs => simp [relPath, strings.Join_cons_cons]

theorem filepath.IsAbs_relPath (rs : List Str) (h : ∀ c ∈ rs, IsName c) :
    filepath.IsAbs (relPath rs) = false := by
  cases rs with
  | nil => rfl
  | cons a rs =>
    obtain ⟨x, r, hx, hne⟩ := relPath_cons a rs (h a (by simp))
    rw [hx]
    cases hb : filepath.IsAbs (x :: r) with
    | false => rfl
    | true =>
      obtain ⟨r2, h2⟩ := (filepath.IsAbs_iff _).1 hb
      simp only [List.cons.injEq] at h2
      exact absurd h2.1 hne

/-- A relative path of names cleans to itself. -/
theorem filepath.Clean_relPath (rs : List Str) (hrs : rs ≠ []) (h : ∀ c ∈ rs, IsName c) :
    filepath.Clean (relPath rs) = relPath rs := by
  cases rs with
  | nil => exact absurd rfl hrs
  | cons a rs =>
    obtain ⟨x, r, hx, -⟩ := relPath_cons a rs (h a (by simp))
    have hne : relPath (a :: rs) ≠ [] := by
      rw [hx]
      exact List.cons_ne_nil _ _
    have hel : filepath.cleanElems false (relPath (a :: rs)) = a :: rs := by
      unfold filepath.cleanElems relPath
      rw [strings.Split_Join _ (by simp) (fun c hc => (h c hc).2.2.2),
        filepath.foldl_cleanElem_names false _ (fun c hc => Or.inr (h c hc)) [],
        List.nil_append, List.filter_eq_self]
      intro c hc
      simpa using (h c hc).1
    unfold filepath.Clean
    rw [if_neg hne, filepath.IsAbs_relPath _ h]
    simp only [Bool.false_eq_true, if_false, List.nil_append, hel]
    exact if_neg hne

/-- Joining a relative path of names and one more name appends the name. -/
theorem filepath.Join_relPath_name (rs : List Str) (n : Str) (h : ∀ c ∈ rs, IsName c)
    (hn : IsName n) : filepath.Join [relPath rs, n] = relPath (rs ++ [n]) := by
  have hall : ∀ c ∈ rs ++ [n], IsName c := by
    intro c hc
    rcases List.mem_append.1 hc with hc | hc
    · exact h c hc
    · simp only [List.mem_singleton] at hc
      exact hc ▸ hn
  have hclean := filepath.Clean_relPath (rs ++ [n]) (by simp) hall
  cases rs with
  | nil =>
    have hn1 : n ≠ [] := hn.1
    simp only [filepath.Join, relPath, strings.Join_nil, List.dropWhile, decide_True, hn1,
      decide_False]
    exact hclean
  | cons a rs =>
    obtain ⟨x, r, hx, -⟩ := relPath_cons a rs (h a (by simp))
    have hne : relPath (a :: rs) ≠ [] := by
      rw [hx]
      exact List.cons_ne_nil _ _
    simp only [filepath.Join, List.dropWhile, hne, decide_False]
    rw [strings.Join_cons_cons, strings.Join_singleton]
    have : relPath (a :: rs ++ [n]) = relPath (a :: rs) ++ ['/'] ++ n := by
      unfold relPath
      rw [strings.Join_append_singleton _ _ (by simp)]
      simp
    rw [← this]
    exact hclean

/-- Joining an absolute path of names and a relative path of names appends
the elements. -/
theorem filepath.Join_absPath_relPath (cs rs : List Str) (hcs : ∀ c ∈ cs, IsName c)
    (hrs : ∀ c ∈ rs, IsName c) :
    filepath.Join [absPath cs, relPath rs] = absPath (cs ++ rs) := by
  have hne : absPath cs ≠ [] := List.cons_ne_nil _ _
  simp only [filepath.Join, List.dropWhile, hne, decide_False]
  rw [strings.Join_cons_cons, strings.Join_singleton]
  have habs : filepath.IsAbs (absPath cs ++ ['/'] ++ relPath rs) = true :=
    (filepath.IsAbs_iff _).2 ⟨_, rfl⟩
  rw [filepath.Clean_of_IsAbs _ habs]
  congr 1
  unfold filepath.cleanElems
  have hs : absPath cs ++ ['/'] ++ relPath rs = absPath cs ++ '/' :: relPath rs := by simp
  rw [hs, strings.Split_append]
  have hsplit : ∀ c ∈ strings.Split (relPath rs) '/', c = [] ∨ IsName c := by
    cases rs with
    | nil => simp [relPath, strings.Join_nil, strings.Split]
    | cons a rs =>
      unfold relPath
      rw [strings.Split_Join _ (by simp) (fun c hc => (hrs c hc).2.2.2)]
      exact fun c hc => Or.inr (hrs c hc)
  have hfilter : (strings.Split (relPath rs) '/').filter (fun c => decide (c ≠ [])) = rs := by
    cases rs with
    | nil => simp [relPath, strings.Join_nil, strings.Split]
    | cons a rs =>
      unfold relPath
      rw [strings.Split_Join _ (by simp) (fun c hc => (hrs c hc).2.2.2), List.filter_eq_self]
      intro c hc
      simpa using (hrs c hc).1
  rw [filepath.foldl_cleanElem_names true _ (by
      intro c hc
      rcases List.mem_append.1 hc with hc | hc
      · exact strings.Split_absPath cs hcs c hc
      · exact hsplit c hc) [],
    List.nil_append, List.filter_append, strings.filter_Split_absPath cs hcs, hfilter]

theorem os.Getwd_IsAbs (w : World) (wd : Str) (h : os.Getwd w = some wd) :
    filepath.IsAbs wd = true := by
  unfold os.Getwd at h
  cases hc : w.cwd with
  | none => simp [hc] at h
  | some es =>
    simp only [hc, Option.map_some', Option.some.injEq] at h
    subst h
    exact (filepath.IsAbs_iff _).2 ⟨_, rfl⟩

/-- What `filepath.Abs` returns is an absolute path of names. -/
theorem filepath.Abs_form (w : World) (path a : Str)
    (h : filepath.Abs (os.Getwd w) path = .ok a) :
    ∃ cs, (∀ c ∈ cs, IsName c) ∧ a = absPath cs := by
  unfold filepath.Abs at h
  split at h
  · rename_i habs
    simp only [Except.ok.injEq] at h
    subst h
    exact ⟨_, filepath.cleanElems_rooted_names path, filepath.Clean_of_IsAbs path habs⟩
  · split at h
    · cases h
    · rename_i wd hwd
      simp only [Except.ok.injEq] at h
      subst h
      obtain ⟨r, rfl⟩ := (filepath.IsAbs_iff _).1 (os.Getwd_IsAbs w wd hwd)
      have hne : ('/' :: r : Str) ≠ [] := List.cons_ne_nil _ _
      simp only [filepath.Join, List.dropWhile, hne, decide_False]
      have habs : filepath.IsAbs (strings.Join ['/' :: r, path] ['/']) = true := by
        rw [strings.Join_cons_cons]
        exact (filepath.IsAbs_iff _).2 ⟨_, rfl⟩
      exact ⟨_, filepath.cleanElems_rooted_names _, filepath.Clean_of_IsAbs _ habs⟩

/-- The path `safePath` accepts is an absolute path of names that has the
root string as a prefix. -/
theorem safePath_form (w : World) (rootPath path sp : Str)
    (h : safePath (os.Getwd w) rootPath path = .ok sp) :
    (∃ cs, (∀ c ∈ cs, IsName c) ∧ sp = absPath cs) ∧ strings.HasPrefix sp rootPath = true := by
  unfold safePath at h
  split at h
  · cases h
  · rename_i a ha
    split at h
    · cases h
    · rename_i hp
      simp only [Except.ok.injEq] at h
      subst h
      exact ⟨filepath.Abs_form w _ _ ha, by simpa using hp⟩

/-- The filesystem resolves an absolute path of names to its elements. -/
theorem os.resolve_absPath (w : World) (cs : List Str) (h : ∀ c ∈ cs, IsName c) :
    os.resolve w (absPath cs) = some cs := by
  have hne : absPath cs ≠ [] := List.cons_ne_nil _ _
  unfold os.resolve filepath.Abs
  rw [if_neg hne, filepath.IsAbs_absPath, if_pos rfl]
  simp only [filepath.Clean_absPath cs h, filepath.cleanElems_absPath cs h]

/-! ## The containment check against the root string -/

theorem strings.Join_cons_of_ne_nil (a : Str) (xs : List Str) (h : xs ≠ []) :
    strings.Join (a :: xs) ['/'] = a ++ '/' :: strings.Join xs ['/'] := by
  cases xs with
  | nil => exact absurd rfl h
  | cons b xs =>
    rw [strings.Join_cons_cons]
    simp

theorem strings.Join_prefix_of_prefix (xs ys : List Str) (h : xs <+: ys) :
    strings.Join xs ['/'] <+: strings.Join ys ['/'] := by
  obtain ⟨zs, rfl⟩ := h
  induction xs with
  | nil => exact List.nil_prefix
  | cons a xs ih =>
    cases xs with
    | nil =>
      cases zs with
      | nil => exact List.prefix_refl _
      | cons z zs =>
        rw [strings.Join_singleton]
        show a <+: strings.Join (a :: z :: zs) ['/']
        rw [strings.Join_cons_cons, List.append_assoc]
        exact List.prefix_append _ _
    | cons b xs =>
      rw [strings.Join_cons_of_ne_nil a (b :: xs) (by simp)]
      show _ <+: strings.Join (a :: (b :: xs ++ zs)) ['/']
      rw [strings.Join_cons_of_ne_nil a (b :: xs ++ zs) (by simp)]
      exact (List.prefix_append_right_inj a).2 ((List.prefix_cons_inj '/').2 ih)

theorem strings.Join_prefix_of_last_prefix (out : List Str) (part c : Str) (t : List Str)
    (h : part <+: c) :
    strings.Join (out ++ [part]) ['/'] <+: strings.Join (out ++ c :: t) ['/'] := by
  induction out with
  | nil =>
    rw [List.nil_append, List.nil_append, strings.Join_singleton]
    refine h.trans ?_
    cases t with
    | nil => rw [strings.Join_singleton]
    | cons b t =>
      rw [strings.Join_cons_cons, List.append_assoc]
      exact List.prefix_append _ _
  | cons a out ih =>
    rw [List.cons_append, List.cons_append, strings.Join_cons_of_ne_nil a _ (by simp),
      strings.Join_cons_of_ne_nil a _ (by simp)]
    exact (List.prefix_append_right_inj a).2 ((List.prefix_cons_inj '/').2 ih)

theorem not_mem_of_prefix (x : Char) (a b : Str) (h : a <+: b) (hb : x ∉ b) : x ∉ a :=
  fun ha => hb (h.subset ha)

/-- The elements kept of a prefix of a clean path, joined, are a prefix of
the clean path. -/
theorem filepath.cleanElem_prefix (cs : List Str) (hcs : ∀ c ∈ cs, IsName c) (r0 : Str)
    (h : r0 <+: strings.Join cs ['/']) (out : List Str) (hout : ∀ c ∈ out, IsName c) :
    strings.Join ((strings.Split r0 '/').foldl (filepath.cleanElem true) out) ['/']
      <+: strings.Join (out ++ cs) ['/'] := by
  induction cs generalizing r0 out with
  | nil =>
    rw [strings.Join_nil] at h
    rw [List.prefix_nil.1 h]
    simp [strings.Split, filepath.cleanElem_nil]
  | cons c t ih =>
    have hc : IsName c := hcs c (by simp)
    have ht : ∀ x ∈ t, IsName x := fun x hx => hcs x (by simp [hx])
    -- the case of a prefix of the first element
    have caseA : ∀ r : Str, r <+: c →
        strings.Join ((strings.Split r '/').foldl (filepath.cleanElem true) out) ['/']
          <+: strings.Join (out ++ c :: t) ['/'] := by
      intro r hr
      have hslash : '/' ∉ r := not_mem_of_prefix '/' r c hr hc.2.2.2
      rw [strings.Split_of_not_mem r '/' hslash, List.foldl_cons, List.foldl_nil]
      by_cases h1 : r = []
      · subst h1
        rw [filepath.cleanElem_nil]
        exact strings.Join_prefix_of_prefix _ _ (List.prefix_append _ _)
      by_cases h2 : r = ['.']
      · subst h2
        have : filepath.cleanElem true out ['.'] = out := by simp [filepath.cleanElem]
        rw [this]
        exact strings.Join_prefix_of_prefix _ _ (List.prefix_append _ _)
      by_cases h3 : r = ['.', '.']
      · subst h3
        cases hgl : out.getLast? with
        | none =>
          have : filepath.cleanElem true out ['.', '.'] = out := by
            simp [filepath.cleanElem, hgl]
          rw [this]
          exact strings.Join_prefix_of_prefix _ _ (List.prefix_append _ _)
        | some l =>
          have hl : l ≠ ['.', '.'] := (hout l (List.mem_of_getLast?_eq_some hgl)).2.2.1
          have : filepath.cleanElem true out ['.', '.'] = out.dropLast := by
            simp [filepath.cleanElem, hgl, hl]
          rw [this]
          exact strings.Join_prefix_of_prefix _ _
            ((List.dropLast_prefix out).trans (List.prefix_append _ _))
      · rw [filepath.cleanElem_name true out r ⟨h1, h2, h3, hslash⟩]
        exact strings.Join_prefix_of_last_prefix out r c t hr
    cases t with
    | nil =>
      rw [strings.Join_singleton] at h
      exact caseA r0 h
    | cons b t =>
      rw [strings.Join_cons_of_ne_nil c (b :: t) (by simp)] at h
      rcases List.prefix_or_prefix_of_prefix h (List.prefix_append c _) with h1 | h1
      · exact caseA r0 h1
      · obtain ⟨r1, rfl⟩ := h1
        have h2 : r1 <+: '/' :: strings.Join (b :: t) ['/'] :=
          (List.prefix_append_right_inj c).1 h
        cases r1 with
        | nil =>
          rw [List.append_nil]
          exact caseA c (List.prefix_refl c)
        | cons x r2 =>
          obtain ⟨hx, h3⟩ := List.cons_prefix_cons.1 h2
          subst hx
          rw [strings.Split_append, strings.Split_of_not_mem c '/' hc.2.2.2, List.singleton_append,
            List.foldl_cons, filepath.cleanElem_name true out c hc]
          have := ih ht r2 h3 (out ++ [c]) (by
            intro y hy
            rcases List.mem_append.1 hy with hy | hy
            · exact hout y hy
            · simp only [List.mem_singleton] at hy
              exact hy ▸ hc)
          simpa using this

theorem strings.HasPrefix_iff (s pre : Str) : strings.HasPrefix s pre = true ↔ pre <+: s := by
  unfold strings.HasPrefix
  exact List.isPrefixOf_iff_prefix

/-- When the root string is a prefix of an absolute path of names, so is the
absolute form of the root, unless the root is the empty string. -/
theorem root_prefix_canonical (w : World) (rootPath r : Str) (cs : List Str)
    (hroot : rootPath ≠ []) (hcs : ∀ c ∈ cs, IsName c)
    (hr : filepath.Abs (os.Getwd w) rootPath = .ok r) (h : rootPath <+: absPath cs) :
    r <+: absPath cs := by
  cases rootPath with
  | nil => exact absurd rfl hroot
  | cons x r0 =>
    obtain ⟨hx, h0⟩ := List.cons_prefix_cons.1 h
    subst hx
    have habs : filepath.IsAbs ('/' :: r0) = true := (filepath.IsAbs_iff _).2 ⟨_, rfl⟩
    unfold filepath.Abs at hr
    rw [if_pos habs] at hr
    simp only [Except.ok.injEq] at hr
    subst hr
    rw [filepath.Clean_of_IsAbs _ habs]
    unfold absPath
    refine (List.prefix_cons_inj '/').2 ?_
    have := filepath.cleanElem_prefix cs hcs r0 h0 [] (by simp)
    unfold filepath.cleanElems
    rw [strings.Split_cons_sep, List.foldl_cons, filepath.cleanElem_nil]
    simpa using this

/-- C1, as the code has it: for every root string that is not empty and every
requested path, when the absolute form of the join of root and path does not
begin with the absolute form of the root, `safePath` fails with the
`HandlingError` whose message is `Hacking attempt` (status 500) and returns no
path. -/
theorem safePath_rejects_outside_root (w : World) (rootPath path a r : Str)
    (hroot : rootPath ≠ [])
    (ha : filepath.Abs (os.Getwd w) (filepath.Join [rootPath, path]) = .ok a)
    (hr : filepath.Abs (os.Getwd w) rootPath = .ok r)
    (hout : strings.HasPrefix a r = false) :
    safePath (os.Getwd w) rootPath path = .error (NewHandlingError "Hacking attempt".toList) ∧
      (NewHandlingError "Hacking attempt".toList).StatusCode = 500 := by
  refine ⟨?_, rfl⟩
  obtain ⟨cs, hcs, rfl⟩ := filepath.Abs_form w _ _ ha
  have hno : strings.HasPrefix (absPath cs) rootPath = false := by
    cases hp : strings.HasPrefix (absPath cs) rootPath with
    | false => rfl
    | true =>
      have h1 := root_prefix_canonical w rootPath r cs hroot hcs hr ((strings.HasPrefix_iff _ _).1 hp)
      rw [(strings.HasPrefix_iff _ _).2 h1] at hout
      cases hout
  unfold safePath
  rw [ha]
  simp [hno]

/-- C1, witness of `safePath_rejects_outside_root`: root `/srv/data` and the
requested path `/../../etc/passwd`. -/
theorem safePath_rejects_outside_root_witness :
    safePath (os.Getwd (sampleWorld [])) "/srv/data".toList "/../../etc/passwd".toList
        = .error (NewHandlingError "Hacking attempt".toList) ∧
      (NewHandlingError "Hacking attempt".toList).StatusCode = 500 :=
  safePath_rejects_outside_root (sampleWorld []) "/srv/data".toList "/../../etc/passwd".toList
    "/etc/passwd".toList "/srv/data".toList (by decide) rfl rfl rfl

/-- C1, the claim as stated fails for the empty root string: in the working
directory `/home/u` the absolute form of the root is `/home/u`, the absolute
form of the join with `/etc/passwd` is `/etc/passwd`, which does not begin
with it, and `safePath` returns that path. -/
theorem safePath_empty_root_accepts_outside :
    filepath.Abs (os.Getwd (sampleWorld [])) (filepath.Join [[], "/etc/passwd".toList])
        = .ok "/etc/passwd".toList ∧
      filepath.Abs (os.Getwd (sampleWorld [])) [] = .ok "/home/u".toList ∧
      strings.HasPrefix "/etc/passwd".toList "/home/u".toList = false ∧
      safePath (os.Getwd (sampleWorld [])) [] "/etc/passwd".toList = .ok "/etc/passwd".toList ∧
      safePath (os.Getwd (sampleWorld [])) [] "/etc/passwd".toList
        ≠ .error (NewHandlingError "Hacking attempt".toList) := by
  refine ⟨rfl, rfl, rfl, rfl, ?_⟩
  intro h
  have h2 : safePath (os.Getwd (sampleWorld [])) [] "/etc/passwd".toList
      = .ok "/etc/passwd".toList := rfl
  rw [h2] at h
  cases h

/-! ## Writing a file and reading it back -/

theorem Node.find_setEntry_self (name : Str) (x : Node) (es : List (Str × Node)) :
    Node.find name (Node.setEntry name x es) = some x := by
  induction es with
  | nil => simp [Node.setEntry, Node.find]
  | cons e es ih =>
    obtain ⟨n, y⟩ := e
    by_cases h : n = name
    · simp [Node.setEntry, Node.find, h]
    · simp [Node.setEntry, Node.find, h, ih]

/-- A node that has been put at a path is the node found there. -/
theorem Node.walk_put (now : Str) (x : Node) (p : List Str) (n n2 : Node)
    (h : n.put now p x = some n2) : n2.walk p = some x := by
  induction p generalizing n n2 with
  | nil => simp [Node.put] at h
  | cons c cs ih =>
    cases n with
    | file content modTime readable => simp [Node.put] at h
    | dir m es =>
      cases cs with
      | nil =>
        simp only [Node.put, Option.some.injEq] at h
        subst h
        simp [Node.walk, Node.find_setEntry_self]
      | cons c2 cs =>
        simp only [Node.put] at h
        cases hf : Node.find c es with
        | none => simp [hf] at h
        | some child =>
          simp only [hf] at h
          cases hp : child.put now (c2 :: cs) x with
          | none => simp [hp] at h
          | some child2 =>
            simp only [hp, Option.some.injEq] at h
            subst h
            have := ih child child2 hp
            simp only [Node.walk, Node.find_setEntry_self]
            exact this

theorem os.Create_walk (w w2 : World) (name : Str) (f : List Str)
    (h : os.Create w name = some (f, w2)) :
    os.resolve w name = some f ∧ ∃ readable, w2.fs.walk f = some (.file [] w.now readable) := by
  unfold os.Create at h
  split at h
  · simp at h
  · rename_i p hp
    split at h
    · simp at h
    · split at h
      · simp at h
      · rename_i fs2 hput
        simp only [Option.some.injEq, Prod.mk.injEq] at h
        obtain ⟨rfl, rfl⟩ := h
        exact ⟨hp, _, Node.walk_put _ _ _ _ _ hput⟩
    · split at h
      · simp at h
      · rename_i fs2 hput
        simp only [Option.some.injEq, Prod.mk.injEq] at h
        obtain ⟨rfl, rfl⟩ := h
        exact ⟨hp, _, Node.walk_put _ _ _ _ _ hput⟩

theorem os.Write_walk (w w2 : World) (f : List Str) (buffer content modTime : Str)
    (readable : Bool) (hfile : w.fs.walk f = some (.file content modTime readable))
    (h : os.Write w f buffer = (true, w2)) :
    w2.fs.walk f = some (.file (content ++ buffer) w.now readable) := by
  unfold os.Write at h
  rw [hfile] at h
  dsimp only at h
  split at h
  · simp at h
  · rename_i fs2 hput
    simp only [Prod.mk.injEq, decide_eq_true_eq] at h
    obtain ⟨hle, rfl⟩ := h
    have := Node.walk_put _ _ _ _ _ hput
    rw [Nat.min_eq_left hle, List.take_length] at this
    exact this

/-- When the receive loop of `handlePut` ends at the delimiter, the open file
holds what it held before followed by the chunks received, in order. -/
theorem writeBody_content (cfg : Config) (f : List Str) (chunks : List Frame) (d : Frame)
    (rest : List Frame) (hchunks : ∀ g ∈ chunks, cfg.IsDelimiter g = false)
    (hd : cfg.IsDelimiter d = true) (w w2 : World) (content modTime : Str) (readable : Bool)
    (hfile : w.fs.walk f = some (.file content modTime readable))
    (h : writeBody cfg f (chunks ++ d :: rest) w = .ok none w2) :
    (∃ modTime2, w2.fs.walk f = some (.file (content ++ chunks.flatten) modTime2 readable)) ∧
      w2.cwd = w.cwd ∧ w2.response = w.response := by
  induction chunks generalizing w content modTime with
  | nil =>
    simp only [List.nil_append, writeBody, hd, if_true, Res.ok.injEq, true_and] at h
    subst h
    exact ⟨⟨modTime, by simpa using hfile⟩, rfl, rfl⟩
  | cons g chunks ih =>
    have hg : cfg.IsDelimiter g = false := hchunks g (by simp)
    have hrest : ∀ g2 ∈ chunks, cfg.IsDelimiter g2 = false :=
      fun g2 h2 => hchunks g2 (by simp [h2])
    simp only [List.cons_append, writeBody, hg] at h
    cases hw : os.Write w f g with
    | mk okFlag w3 =>
      rw [hw] at h
      cases okFlag with
      | false =>
        simp only [Bool.false_eq_true, if_false] at h
        rw [dropUntilDelimiter_delimited cfg _ chunks d rest rfl hrest hd] at h
        simp only [Res.ok_andThen] at h
        cases h
      | true =>
        have h3 := os.Write_walk w w3 f g content modTime readable hfile hw
        have hfr := os.Write_frames w f g
        rw [hw] at hfr
        obtain ⟨⟨m2, h4⟩, h5, h6⟩ := ih hrest w3 (content ++ g) w.now h3 h
        refine ⟨⟨m2, ?_⟩, h5.trans hfr.2.2.1, h6.trans hfr.2.1⟩
        simpa using h4

theorem readFrames_flatten (size : Nat) (hsize : 0 < size) (fuel : Nat) (data : Str)
    (h : data.length ≤ fuel) : (readFrames size fuel data).flatten = data := by
  induction fuel generalizing data with
  | zero =>
    have : data = [] := List.length_eq_zero.1 (Nat.le_zero.1 h)
    subst this
    rfl
  | succ fuel ih =>
    unfold readFrames
    dsimp only
    split
    · rename_i h0
      rw [List.length_take] at h0
      have : data.length = 0 := by omega
      rw [List.length_eq_zero.1 this]
      rfl
    · rw [List.flatten_cons, ih (data.drop size) (by rw [List.length_drop]; omega)]
      exact List.take_append_drop size data

theorem os.resolve_congr (w w2 : World) (name : Str) (hcwd : w2.cwd = w.cwd) :
    os.resolve w2 name = os.resolve w name := by
  simp [os.resolve, os.Getwd, hcwd]

/-- What a `handlePut` that returns no error leaves behind: the path is one
`safePath` accepts, and the file there holds the chunks received before the
delimiter, concatenated. -/
theorem handlePut_ok (cfg : Config) (path : Str) (w w1 : World) (chunks : List Frame) (d : Frame)
    (rest : List Frame) (hin : w.inbound = chunks ++ d :: rest)
    (hchunks : ∀ f ∈ chunks, cfg.IsDelimiter f = false) (hd : cfg.IsDelimiter d = true)
    (h : handlePut cfg path w = .ok none w1) :
    ∃ sp modTime readable,
      safePath (os.Getwd w) cfg.rootPath path = .ok sp ∧
      os.Stat w1 sp = some (.file chunks.flatten modTime readable) ∧
      w1.cwd = w.cwd ∧
      w1.response = w.response ++
        [statusCodeBuffer cfg 200,
          headerBlock cfg
            [("Content-Type".toList, "text/plain".toList), ("ETag".toList, modTime)],
          "OK".toList] := by
  unfold handlePut at h
  split at h
  · rw [dropUntilDelimiter_delimited cfg w chunks d rest hin hchunks hd] at h
    simp only [Res.ok_andThen] at h
    cases h
  · rename_i sp hsp
    dsimp only at h
    have hmk := os.MkdirAll_frames w (filepath.Base sp)
    split at h
    · rw [dropUntilDelimiter_delimited cfg _ chunks d rest (hmk.1.trans hin) hchunks hd] at h
      simp only [Res.ok_andThen] at h
      cases h
    · rename_i f w3 hcreate
      have hc := os.Create_frames _ _ _ _ hcreate
      obtain ⟨hres, r0, hwalk⟩ := os.Create_walk _ _ _ _ hcreate
      rw [hc.1, hmk.1, hin, Res.andThen_eq_ok] at h
      obtain ⟨err, w4, h4, h5⟩ := h
      cases err with
      | some e =>
        simp only at h5
        cases h5
      | none =>
        obtain ⟨⟨m2, hfile⟩, hcwd4, hresp4⟩ :=
          writeBody_content cfg f chunks d rest hchunks hd w3 w4 [] _ r0 hwalk h4
        have hstat4 : os.Stat w4 sp = some (.file chunks.flatten m2 r0) := by
          unfold os.Stat
          rw [os.resolve_congr (os.MkdirAll w (filepath.Base sp)) w4 sp (hcwd4.trans hc.2.2.1),
            hres]
          simpa using hfile
        simp only [hstat4, Node.ModTime] at h5
        rw [sendHeaders_cons] at h5
        simp only [Res.ok_andThen, Res.ok.injEq, true_and] at h5
        subst h5
        refine ⟨sp, m2, r0, hsp, hstat4, ?_, ?_⟩
        · exact hcwd4.trans (hc.2.2.1.trans hmk.2.2.1)
        · simp [send, hresp4, hc.2.1, hmk.2.1]

/-- C3, as the code has it: when `handlePut` on a path returns no error, having
received the chunks `chunks` and then the delimiter, and the file it wrote can
be opened for reading, a `handleGet` on the same path and the same filesystem
answers with the status 200, one header block and body frames whose
concatenation is the concatenation of the chunks. -/
theorem put_then_get_round_trip (cfg : Config) (path : Str) (w w1 wg : World)
    (chunks : List Frame) (d : Frame) (rest : List Frame)
    (preG : List Frame) (dG : Frame) (restG : List Frame)
    (hsize : 0 < cfg.BUFFER_SIZE)
    (hin : w.inbound = chunks ++ d :: rest)
    (hchunks : ∀ f ∈ chunks, cfg.IsDelimiter f = false) (hd : cfg.IsDelimiter d = true)
    (hput : handlePut cfg path w = .ok none w1)
    (hfs : wg.fs = w1.fs) (hcwd : wg.cwd = w1.cwd)
    (hinG : wg.inbound = preG ++ dG :: restG)
    (hpreG : ∀ f ∈ preG, cfg.IsDelimiter f = false) (hdG : cfg.IsDelimiter dG = true)
    (hopen : ∀ sp, safePath (os.Getwd wg) cfg.rootPath path = .ok sp → os.Open wg sp ≠ none) :
    ∃ (block : Frame) (body : List Frame) (wg2 : World),
      handleGet cfg path wg = .ok none wg2 ∧
      wg2.response = wg.response ++ [statusCodeBuffer cfg 200, block] ++ body ∧
      body.flatten = chunks.flatten := by
  obtain ⟨sp, modTime, readable, hsp, hstat, hcwd1, -⟩ :=
    handlePut_ok cfg path w w1 chunks d rest hin hchunks hd hput
  have hspG : safePath (os.Getwd wg) cfg.rootPath path = .ok sp := by
    rw [os.Getwd_congr w wg (hcwd.trans hcwd1)]
    exact hsp
  have hstatG : os.Stat wg sp = some (.file chunks.flatten modTime readable) := by
    rw [os.Stat_congr w1 wg sp hfs hcwd]
    exact hstat
  have hr : readable = true := by
    cases readable with
    | true => rfl
    | false =>
      have := hopen sp hspG
      rw [os.Open_of_stat wg sp _ _ _ hstatG] at this
      simp at this
  subst hr
  have hget := handleGet_file cfg path sp wg chunks.flatten modTime true preG dG restG hinG hpreG
    hdG hspG hstatG
  simp only [if_true] at hget
  exact ⟨_, _, _, hget, rfl, readFrames_flatten cfg.BUFFER_SIZE hsize _ _ (Nat.le_refl _)⟩

/-- C3, witness of `put_then_get_round_trip`: `PUT /new.txt` with the body
`wor`, `ld`, then `GET /new.txt`. -/
theorem put_then_get_round_trip_witness :
    ∃ (block : Frame) (body : List Frame) (wg2 : World),
      handleGet sampleConfig "/new.txt".toList getNewWorld = .ok none wg2 ∧
      wg2.response = getNewWorld.response ++ [statusCodeBuffer sampleConfig 200, block] ++ body ∧
      body.flatten = ["wor".toList, "ld".toList].flatten :=
  put_then_get_round_trip sampleConfig "/new.txt".toList putNewWorld
    ((handlePut sampleConfig "/new.txt".toList putNewWorld).world putNewWorld) getNewWorld
    ["wor".toList, "ld".toList] sampleConfig.DELIMITERBUFFER []
    [] sampleConfig.DELIMITERBUFFER []
    (by decide) rfl (by decide) (by decide) rfl rfl rfl rfl (by decide) (by decide)
    (by
      intro sp h
      have h2 : safePath (os.Getwd getNewWorld) sampleConfig.rootPath "/new.txt".toList
          = .ok "/srv/data/new.txt".toList := rfl
      rw [h2] at h
      cases h
      have h3 : os.Open getNewWorld "/srv/data/new.txt".toList = some "world".toList := rfl
      rw [h3]
      exact fun h4 => by cases h4)

/-- C3, the claim as stated fails: the path `/` is accepted by `safePath` and
names the root directory; `handlePut` on it with the body `world` returns the
error `Could not create file`, and the `handleGet` that follows answers with
the listing of the directory, not with the bytes of the PUT. -/
theorem put_on_directory_breaks_round_trip :
    ∃ w1 wg2,
      safePath (os.Getwd (sampleWorld [])) sampleConfig.rootPath "/".toList
        = .ok "/srv/data".toList ∧
      handlePut sampleConfig "/".toList
          (sampleWorld ["world".toList, sampleConfig.DELIMITERBUFFER])
        = .ok (some (NewHttpError 500 "Could not create file".toList)) w1 ∧
      handleGet sampleConfig "/".toList
          { w1 with inbound := [sampleConfig.DELIMITERBUFFER], response := [] }
        = .ok none wg2 ∧
      wg2.response =
        [statusCodeBuffer sampleConfig 200, "Content-Type: text/plain".toList,
          "locked.bin\n".toList, "notes.txt\n".toList, "sub/\n".toList] ∧
      (wg2.response.drop 2).flatten ≠ ["world".toList].flatten :=
  ⟨_, _, rfl, rfl, rfl, rfl, by decide⟩

/-! ## Directory trees -/

theorem Node.walk_append (n : Node) (p q : List Str) :
    n.walk (p ++ q) = (n.walk p).bind (fun x => x.walk q) := by
  induction p generalizing n with
  | nil => simp [Node.walk]
  | cons c cs ih =>
    cases n with
    | file content modTime readable =>
      simp [Node.walk]
    | dir m es =>
      simp only [List.cons_append, Node.walk]
      cases hf : Node.find c es with
      | none => simp
      | some child => simpa using ih child

theorem Node.find_mem (name : Str) (x : Node) (es : List (Str × Node))
    (h : Node.find name es = some x) : (name, x) ∈ es := by
  induction es with
  | nil => simp [Node.find] at h
  | cons e es ih =>
    obtain ⟨n, y⟩ := e
    by_cases hn : n = name
    · simp only [Node.find, hn, if_true, Option.some.injEq] at h
      simp [hn, h]
    · simp only [Node.find, hn, if_false] at h
      exact List.mem_cons_of_mem _ (ih h)

theorem Node.find_eq_none (name : Str) (es : List (Str × Node))
    (h : Node.find name es = none) : name ∉ es.map Prod.fst := by
  induction es with
  | nil => simp
  | cons e es ih =>
    obtain ⟨n, y⟩ := e
    by_cases hn : n = name
    · simp [Node.find, hn] at h
    · simp only [Node.find, hn, if_false] at h
      simp only [List.map_cons, List.mem_cons, not_or]
      exact ⟨fun e => hn e.symm, ih h⟩

theorem Node.wfEntries_cons (n : Str) (x : Node) (rest : List (Str × Node)) :
    Node.wf.wfEntries ((n, x) :: rest) = true ↔
      IsName n ∧ Node.find n rest = none ∧ x.wf = true ∧ Node.wf.wfEntries rest = true := by
  simp [Node.wf.wfEntries, and_assoc]

theorem Node.wf_dir (m : Str) (es : List (Str × Node)) :
    (Node.dir m es).wf = Node.wf.wfEntries es := by
  simp [Node.wf]

theorem Node.depth_dir (m : Str) (es : List (Str × Node)) :
    (Node.dir m es).depth = 1 + Node.depth.depthEntries es := by
  simp [Node.depth]

/-- In a well-formed directory an entry that is a member is the entry found
under its name, has a name, is well formed and is less deep. -/
theorem Node.wfEntries_mem (es : List (Str × Node)) (hwf : Node.wf.wfEntries es = true)
    (name : Str) (x : Node) (h : (name, x) ∈ es) :
    Node.find name es = some x ∧ IsName name ∧ x.wf = true ∧
      x.depth ≤ Node.depth.depthEntries es := by
  induction es with
  | nil => simp at h
  | cons e es ih =>
    obtain ⟨n, y⟩ := e
    obtain ⟨h1, h2, h3, h4⟩ := (Node.wfEntries_cons n y es).1 hwf
    rcases List.mem_cons.1 h with heq | hmem
    · simp only [Prod.mk.injEq] at heq
      obtain ⟨rfl, rfl⟩ := heq
      refine ⟨by simp [Node.find], h1, h3, ?_⟩
      simp [Node.depth.depthEntries]
    · obtain ⟨i1, i2, i3, i4⟩ := ih h4 hmem
      have hne : n ≠ name := by
        intro e
        subst e
        exact Node.find_eq_none _ es h2 (List.mem_map_of_mem Prod.fst hmem)
      refine ⟨by simp [Node.find, hne, i1], i2, i3, ?_⟩
      simp only [Node.depth.depthEntries]
      exact le_trans i4 (le_max_right _ _)

theorem Node.wfEntries_nodup (es : List (Str × Node)) (hwf : Node.wf.wfEntries es = true) :
    (es.map Prod.fst).Nodup := by
  induction es with
  | nil => simp
  | cons e es ih =>
    obtain ⟨n, y⟩ := e
    obtain ⟨-, h2, -, h4⟩ := (Node.wfEntries_cons n y es).1 hwf
    simp only [List.map_cons, List.nodup_cons]
    exact ⟨Node.find_eq_none _ es h2, ih h4⟩

/-- The elements of a path that leads somewhere in a well-formed tree are names. -/
theorem Node.walk_names (p : List Str) (n x : Node) (hwf : n.wf = true)
    (h : n.walk p = some x) : (∀ c ∈ p, IsName c) ∧ x.wf = true := by
  induction p generalizing n with
  | nil =>
    simp only [Node.walk, Option.some.injEq] at h
    subst h
    exact ⟨by simp, hwf⟩
  | cons c cs ih =>
    cases n with
    | file content modTime readable => simp [Node.walk] at h
    | dir m es =>
      simp only [Node.walk] at h
      cases hf : Node.find c es with
      | none => simp [hf] at h
      | some child =>
        simp only [hf] at h
        rw [Node.wf_dir] at hwf
        obtain ⟨-, hname, hchild, -⟩ := Node.wfEntries_mem es hwf c child (Node.find_mem _ _ _ hf)
        obtain ⟨i1, i2⟩ := ih child hchild h
        refine ⟨?_, i2⟩
        intro y hy
        rcases List.mem_cons.1 hy with rfl | hy
        · exact hname
        · exact i1 y hy

/-! ## The frames of a directory walk -/

theorem relPath_injective (p q : List Str) (hp : ∀ c ∈ p, IsName c) (hq : ∀ c ∈ q, IsName c)
    (hpne : p ≠ []) (hqne : q ≠ []) (h : relPath p = relPath q) : p = q := by
  have h1 := strings.Split_Join p hpne (fun c hc => (hp c hc).2.2.2)
  have h2 := strings.Split_Join q hqne (fun c hc => (hq c hc).2.2.2)
  unfold relPath at h
  rw [h] at h1
  exact h1.symm.trans h2

theorem fileFrame_injective (p q : List Str) (hp : ∀ c ∈ p, IsName c) (hq : ∀ c ∈ q, IsName c)
    (hpne : p ≠ []) (hqne : q ≠ []) (h : fileFrame p = fileFrame q) : p = q := by
  unfold fileFrame at h
  exact relPath_injective p q hp hq hpne hqne (List.append_cancel_right (List.cons.inj h).2)

theorem ListedVia_form (e : Str × Node) (rel : List Str) (f : Frame) (hwf : e.2.wf = true)
    (h : ListedVia e rel f) :
    ∃ sub, (∀ c ∈ sub, IsName c) ∧ f = fileFrame (rel ++ e.1 :: sub) := by
  obtain ⟨-, h | h⟩ := h
  · exact ⟨[], by simp, h.2⟩
  · obtain ⟨-, sub, -, -, ⟨c, m, r, hwalk⟩, hf⟩ := h
    refine ⟨sub, (Node.walk_names sub e.2 _ hwf hwalk).1, ?_⟩
    rw [hf]
    simp

theorem ListedVia_name_eq (e e2 : Str × Node) (rel : List Str) (f : Frame)
    (hrel : ∀ c ∈ rel, IsName c) (hn : IsName e.1) (hn2 : IsName e2.1)
    (hwf : e.2.wf = true) (hwf2 : e2.2.wf = true)
    (h : ListedVia e rel f) (h2 : ListedVia e2 rel f) : e.1 = e2.1 := by
  obtain ⟨sub, hsub, hf⟩ := ListedVia_form e rel f hwf h
  obtain ⟨sub2, hsub2, hf2⟩ := ListedVia_form e2 rel f hwf2 h2
  have hall : ∀ (n : Str) (s : List Str), IsName n → (∀ c ∈ s, IsName c) →
      ∀ c ∈ rel ++ n :: s, IsName c := by
    intro n s hn hs c hc
    rcases List.mem_append.1 hc with hc | hc
    · exact hrel c hc
    · rcases List.mem_cons.1 hc with rfl | hc
      · exact hn
      · exact hs c hc
  have := fileFrame_injective _ _ (hall e.1 sub hn hsub) (hall e2.1 sub2 hn2 hsub2) (by simp)
    (by simp) (hf.symm.trans hf2)
  have := List.append_cancel_left this
  simp only [List.cons.injEq] at this
  exact this.1

theorem World.response_append_nil (w : World) : { w with response := w.response ++ [] } = w := by
  cases w
  simp

theorem walkFiles_spec (sp : Str) (fuel : Nat) (fs0 : Node) (rel : List Str)
    (es : List (Str × Node)) (hrel : ∀ c ∈ rel, IsName c)
    (hwf : Node.wf.wfEntries es = true)
    (hrec : ∀ (name m2 : Str) (es2 : List (Str × Node)) (w0 : World), w0.fs = fs0 →
      (name, Node.dir m2 es2) ∈ es →
      ∃ frames, walkDirectory sp fuel (relPath (rel ++ [name])) w0
          = .ok () { w0 with response := w0.response ++ frames } ∧
        frames.Nodup ∧ ∀ f, f ∈ frames ↔ Listed (.dir m2 es2) (rel ++ [name]) f)
    (L : List (Str × Node)) (hL : ∀ e ∈ L, e ∈ es) (hnd : (L.map Prod.fst).Nodup)
    (w0 : World) (hw0 : w0.fs = fs0) :
    ∃ frames, walkFiles (walkDirectory sp fuel) (relPath rel) L w0
        = .ok () { w0 with response := w0.response ++ frames } ∧
      frames.Nodup ∧ ∀ f, f ∈ frames ↔ ∃ e ∈ L, ListedVia e rel f := by
  induction L generalizing w0 with
  | nil =>
    refine ⟨[], ?_, List.nodup_nil,
      fun f => Iff.intro (fun h => by cases h) (fun h => by
        obtain ⟨e, he, -⟩ := h
        cases he)⟩
    rw [World.response_append_nil]
    rfl
  | cons e L ih =>
    obtain ⟨name, x⟩ := e
    have hmem : (name, x) ∈ es := hL _ (by simp)
    obtain ⟨-, hname, hxwf, -⟩ := Node.wfEntries_mem es hwf name x hmem
    have hL2 : ∀ e ∈ L, e ∈ es := fun e he => hL e (by simp [he])
    simp only [List.map_cons, List.nodup_cons] at hnd
    obtain ⟨hnotin, hnd2⟩ := hnd
    -- no frame of the other entries is a frame of this one
    have hdisj : ∀ f, ListedVia (name, x) rel f → ¬ ∃ e ∈ L, ListedVia e rel f := by
      rintro f h1 ⟨e2, he2, h2⟩
      obtain ⟨-, hname2, hwf2, -⟩ := Node.wfEntries_mem es hwf e2.1 e2.2 (hL2 e2 he2)
      have hsame : name = e2.1 :=
        ListedVia_name_eq (name, x) e2 rel f hrel hname hname2 hxwf hwf2 h1 h2
      rw [hsame] at hnotin
      exact hnotin (List.mem_map_of_mem Prod.fst he2)
    cases hnm : name with
    | nil => exact absurd hnm hname.1
    | cons c t =>
      subst hnm
      by_cases hc : c = '.'
      · obtain ⟨frames, h1, h2, h3⟩ := ih hL2 hnd2 w0 hw0
        refine ⟨frames, ?_, h2, ?_⟩
        · simp only [walkFiles, hc, if_true]
          exact h1
        · intro f
          rw [h3 f]
          constructor
          · rintro ⟨e, he, hv⟩
            exact ⟨e, by simp [he], hv⟩
          · rintro ⟨e, he, hv⟩
            rcases List.mem_cons.1 he with rfl | he
            · exact absurd (by simp [hc]) hv.1
            · exact ⟨e, he, hv⟩
      · have hvis : (c :: t).head? ≠ some '.' := by simp [hc]
        cases x with
        | file content modTime readable =>
          obtain ⟨frames, h1, h2, h3⟩ :=
            ih hL2 hnd2 (send w0 (fileFrame (rel ++ [c :: t]))) hw0
          have hmine : ListedVia (c :: t, Node.file content modTime readable) rel
              (fileFrame (rel ++ [c :: t])) := ⟨hvis, Or.inl ⟨rfl, rfl⟩⟩
          refine ⟨fileFrame (rel ++ [c :: t]) :: frames, ?_, ?_, ?_⟩
          · simp only [walkFiles, hc, if_false, Node.IsDir, Bool.false_eq_true]
            rw [filepath.Join_relPath_name rel (c :: t) hrel hname]
            show walkFiles _ _ L (send w0 (fileFrame (rel ++ [c :: t]))) = _
            rw [h1]
            simp [send]
          · refine List.nodup_cons.2 ⟨?_, h2⟩
            intro hin
            exact hdisj _ hmine ((h3 _).1 hin)
          · intro f
            rw [List.mem_cons, h3 f]
            constructor
            · rintro (rfl | ⟨e, he, hv⟩)
              · exact ⟨_, by simp, hmine⟩
              · exact ⟨e, by simp [he], hv⟩
            · rintro ⟨e, he, hv⟩
              rcases List.mem_cons.1 he with rfl | he
              · obtain ⟨-, hv2 | hv2⟩ := hv
                · exact Or.inl hv2.2
                · exact absurd hv2.1 (by simp [Node.IsDir])
              · exact Or.inr ⟨e, he, hv⟩
        | dir m2 es2 =>
          obtain ⟨framesX, g1, g2, g3⟩ := hrec (c :: t) m2 es2 w0 hw0 hmem
          obtain ⟨frames, h1, h2, h3⟩ :=
            ih hL2 hnd2 { w0 with response := w0.response ++ framesX } hw0
          refine ⟨framesX ++ frames, ?_, ?_, ?_⟩
          · simp only [walkFiles, hc, if_false, Node.IsDir, if_true]
            rw [filepath.Join_relPath_name rel (c :: t) hrel hname, g1, Res.ok_andThen, h1]
            simp
          · refine List.nodup_append.2 ⟨g2, h2, ?_⟩
            intro f hf1 hf2
            exact hdisj f
              (show ListedVia (c :: t, Node.dir m2 es2) rel f from
                ⟨hvis, Or.inr ⟨rfl, (g3 f).1 hf1⟩⟩)
              ((h3 f).1 hf2)
          · intro f
            rw [List.mem_append, h3 f, g3 f]
            constructor
            · rintro (hx | ⟨e, he, hv⟩)
              · exact ⟨(c :: t, Node.dir m2 es2), by simp, hvis, Or.inr ⟨rfl, hx⟩⟩
              · exact ⟨e, by simp [he], hv⟩
            · rintro ⟨e, he, hv⟩
              rcases List.mem_cons.1 he with rfl | he
              · obtain ⟨-, hv2 | hv2⟩ := hv
                · exact absurd hv2.1 (by simp [Node.IsDir])
                · exact Or.inl hv2.2
              · exact Or.inr ⟨e, he, hv⟩

theorem Node.walk_cons_dir (m : Str) (es : List (Str × Node)) (c : Str) (cs : List Str)
    (x : Node) (h : Node.find c es = some x) :
    (Node.dir m es).walk (c :: cs) = x.walk cs := by
  simp [Node.walk, h]

/-- The files reported through the entries of a well-formed directory are the
files listed below it. -/
theorem listedVia_iff_listed (m : Str) (es L : List (Str × Node)) (rel : List Str)
    (hwf : Node.wf.wfEntries es = true) (hperm : ∀ e, e ∈ L ↔ e ∈ es) (f : Frame) :
    (∃ e ∈ L, ListedVia e rel f) ↔ Listed (.dir m es) rel f := by
  constructor
  · rintro ⟨⟨name, x⟩, he, hvis, hv⟩
    obtain ⟨hfind, -, -, -⟩ := Node.wfEntries_mem es hwf name x ((hperm _).1 he)
    rcases hv with ⟨hfile, hf⟩ | ⟨hdir, sub, hsub, hsubvis, hwalk, hf⟩
    · cases x with
      | dir m2 es2 => simp [Node.IsDir] at hfile
      | file content modTime readable =>
        refine ⟨[name], by simp, ?_, ⟨content, modTime, readable, ?_⟩, hf⟩
        · intro c hc
          simp only [List.mem_singleton] at hc
          exact hc ▸ hvis
        · rw [Node.walk_cons_dir m es name [] _ hfind]
          rfl
    · refine ⟨name :: sub, by simp, ?_, ?_, ?_⟩
      · intro c hc
        rcases List.mem_cons.1 hc with rfl | hc
        · exact hvis
        · exact hsubvis c hc
      · rw [Node.walk_cons_dir m es name sub _ hfind]
        exact hwalk
      · rw [hf]
        simp
  · rintro ⟨sub, hsub, hvis, ⟨content, modTime, readable, hwalk⟩, hf⟩
    cases sub with
    | nil => exact absurd rfl hsub
    | cons name sub =>
      cases hfind : Node.find name es with
      | none => simp [Node.walk, hfind] at hwalk
      | some x =>
        rw [Node.walk_cons_dir m es name sub x hfind] at hwalk
        have hmem := (hperm _).2 (Node.find_mem _ _ _ hfind)
        refine ⟨(name, x), hmem, hvis name (by simp), ?_⟩
        cases sub with
        | nil =>
          simp only [Node.walk, Option.some.injEq] at hwalk
          subst hwalk
          exact Or.inl ⟨rfl, hf⟩
        | cons c2 sub =>
          cases x with
          | file c3 m3 r3 => simp [Node.walk] at hwalk
          | dir m2 es2 =>
            refine Or.inr ⟨rfl, c2 :: sub, by simp, fun c hc => hvis c (by simp [hc]),
              ⟨content, modTime, readable, hwalk⟩, ?_⟩
            rw [hf]
            simp

/-- What `walkDirectory` writes, given enough fuel for the depth of the tree:
one frame for each regular file reached from the directory through visible
names, each once. -/
theorem walkDirectory_spec (sp : Str) (cs : List Str) (fs0 target : Node) (hsp : sp = absPath cs)
    (hcs : ∀ c ∈ cs, IsName c) (htarget : fs0.walk cs = some target) (fuel : Nat) :
    ∀ (rel : List Str) (m : Str) (es : List (Str × Node)) (w0 : World), w0.fs = fs0 →
      (∀ c ∈ rel, IsName c) → target.walk rel = some (.dir m es) →
      (Node.dir m es).wf = true → (Node.dir m es).depth ≤ fuel →
      ∃ frames, walkDirectory sp fuel (relPath rel) w0
          = .ok () { w0 with response := w0.response ++ frames } ∧
        frames.Nodup ∧ ∀ f, f ∈ frames ↔ Listed (.dir m es) rel f := by
  induction fuel with
  | zero =>
    intro rel m es w0 _ _ _ _ hdepth
    rw [Node.depth_dir] at hdepth
    omega
  | succ fuel ih =>
    intro rel m es w0 hw0 hrel hwalk hwf hdepth
    rw [Node.wf_dir] at hwf
    rw [Node.depth_dir] at hdepth
    have hread : ioutil.ReadDir w0 (filepath.Join [sp, relPath rel])
        = es.insertionSort (fun a b => nameLe a.1 b.1 = true) := by
      have hall : ∀ c ∈ cs ++ rel, IsName c := by
        intro c hc
        rcases List.mem_append.1 hc with hc | hc
        · exact hcs c hc
        · exact hrel c hc
      have hstat : os.Stat w0 (absPath (cs ++ rel)) = some (.dir m es) := by
        unfold os.Stat
        rw [os.resolve_absPath w0 _ hall]
        simp only [hw0, Node.walk_append, htarget, Option.some_bind, hwalk]
      unfold ioutil.ReadDir
      rw [hsp, filepath.Join_absPath_relPath cs rel hcs hrel, hstat]
    have hmemL : ∀ e, e ∈ es.insertionSort (fun a b => nameLe a.1 b.1 = true) ↔ e ∈ es :=
      fun e => (List.perm_insertionSort _ es).mem_iff
    have hndL : ((es.insertionSort (fun a b => nameLe a.1 b.1 = true)).map Prod.fst).Nodup :=
      ((List.perm_insertionSort _ es).map Prod.fst).nodup_iff.2 (Node.wfEntries_nodup es hwf)
    have hrec : ∀ (name m2 : Str) (es2 : List (Str × Node)) (w1 : World), w1.fs = fs0 →
        (name, Node.dir m2 es2) ∈ es →
        ∃ frames, walkDirectory sp fuel (relPath (rel ++ [name])) w1
            = .ok () { w1 with response := w1.response ++ frames } ∧
          frames.Nodup ∧ ∀ f, f ∈ frames ↔ Listed (.dir m2 es2) (rel ++ [name]) f := by
      intro name m2 es2 w1 hw1 hmem
      obtain ⟨hfind, hname, hxwf, hxdepth⟩ := Node.wfEntries_mem es hwf name _ hmem
      refine ih (rel ++ [name]) m2 es2 w1 hw1 ?_ ?_ hxwf (by omega)
      · intro c hc
        rcases List.mem_append.1 hc with hc | hc
        · exact hrel c hc
        · simp only [List.mem_singleton] at hc
          exact hc ▸ hname
      · rw [Node.walk_append, hwalk, Option.some_bind, Node.walk_cons_dir m es name [] _ hfind]
        rfl
    obtain ⟨frames, h1, h2, h3⟩ := walkFiles_spec sp fuel fs0 rel es hrel hwf hrec _
      (fun e he => (hmemL e).1 he) hndL w0 hw0
    refine ⟨frames, ?_, h2, ?_⟩
    · show walkFiles (walkDirectory sp fuel) (relPath rel)
        (ioutil.ReadDir w0 (filepath.Join [sp, relPath rel])) w0 = _
      rw [hread]
      exact h1
    · intro f
      rw [h3 f]
      exact listedVia_iff_listed m es _ rel hwf hmemL f

/-- C7, as the code has it: a POST with `action=filelist` on a directory, given
fuel for the depth of the tree below it, answers with the status 200, the
header block `Content-Type: text/plain` and one body frame for each regular
file below the target that is reached through names none of which begins with
a dot, the names of the directories on the way included: the frames are
pairwise different, a frame is written exactly when it is `/`, the relative
path of such a file and a newline, and different files have different
frames. -/
theorem handlePost_filelist (cfg : Config) (fuel : Nat) (path sp : Str) (w : World)
    (pre : List Frame) (d : Frame) (rest : List Frame) (vals : url.Values) (more : List Str)
    (m : Str) (es : List (Str × Node))
    (hin : w.inbound = pre ++ d :: rest)
    (hpre : ∀ f ∈ pre, cfg.IsDelimiter f = false) (hd : cfg.IsDelimiter d = true)
    (hquery : url.ParseQuery pre.flatten = .ok vals)
    (haction : url.Values.get vals "action".toList = "filelist".toList :: more)
    (hsafe : safePath (os.Getwd w) cfg.rootPath path = .ok sp)
    (hstat : os.Stat w sp = some (.dir m es))
    (hwf : (Node.dir m es).wf = true)
    (hfuel : (Node.dir m es).depth ≤ fuel) :
    ∃ (body : List Frame) (w2 : World),
      handlePost cfg fuel path w = .ok none w2 ∧
      w2.response = w.response ++
        [statusCodeBuffer cfg 200, "Content-Type: text/plain".toList] ++ body ∧
      body.Nodup ∧
      (∀ f, f ∈ body ↔
        ∃ sub, sub ≠ [] ∧ (∀ c ∈ sub, c.head? ≠ some '.') ∧
          (∃ content modTime readable,
            (Node.dir m es).walk sub = some (.file content modTime readable)) ∧
          f = '/' :: strings.Join sub ['/'] ++ "\n".toList) ∧
      (∀ p q x y, p ≠ [] → q ≠ [] → (Node.dir m es).walk p = some x →
        (Node.dir m es).walk q = some y →
        '/' :: strings.Join p ['/'] ++ "\n".toList = '/' :: strings.Join q ['/'] ++ "\n".toList →
        p = q) := by
  obtain ⟨⟨cs, hcs, hsp⟩, -⟩ := safePath_form w cfg.rootPath path sp hsafe
  have htarget : w.fs.walk cs = some (.dir m es) := by
    have := hstat
    unfold os.Stat at this
    rw [hsp, os.resolve_absPath w cs hcs] at this
    exact this
  have hstat2 : os.Stat { w with inbound := rest } sp = some (.dir m es) := hstat
  obtain ⟨frames, h1, h2, h3⟩ := walkDirectory_spec sp cs w.fs (.dir m es) hsp hcs htarget fuel
    [] m es
    (send (send { w with inbound := rest } (statusCodeBuffer cfg 200))
      "Content-Type: text/plain".toList) rfl (by simp) rfl hwf hfuel
  refine ⟨frames,
    { send (send { w with inbound := rest } (statusCodeBuffer cfg 200))
        "Content-Type: text/plain".toList with
      response := (send (send { w with inbound := rest } (statusCodeBuffer cfg 200))
        "Content-Type: text/plain".toList).response ++ frames }, ?_, ?_, h2, ?_, ?_⟩
  · unfold handlePost readWholeBody
    rw [hin, readLoop_delimited cfg w pre d rest [] hpre hd]
    simp only [Res.ok_andThen, List.nil_append]
    rw [hsafe]
    simp only [hstat2, hquery, haction, if_true]
    rw [sendHeaders_cons, headerBlock_singleton]
    simp only [Res.ok_andThen]
    have hblock : headerLine ("Content-Type".toList, "text/plain".toList)
        = "Content-Type: text/plain".toList := by decide
    rw [hblock]
    show (walkDirectory sp fuel (relPath []) _).andThen _ = _
    rw [h1]
    rfl
  · simp [send]
  · intro f
    rw [h3 f]
    rfl
  · intro p q x y hp hq hx hy hpq
    exact fileFrame_injective p q (Node.walk_names p _ x hwf hx).1
      (Node.walk_names q _ y hwf hy).1 hp hq hpq

/-- C7, witness of `handlePost_filelist`: `POST /` with the body
`action=filelist` on the sample filesystem. -/
theorem handlePost_filelist_witness :
    ∃ (body : List Frame) (w2 : World),
      handlePost sampleConfig 3 "/".toList
          (sampleWorld ["action=".toList, "filelist".toList, sampleConfig.DELIMITERBUFFER])
        = .ok none w2 ∧
      w2.response = [] ++
        [statusCodeBuffer sampleConfig 200, "Content-Type: text/plain".toList] ++ body ∧
      body.Nodup :=
  have h := handlePost_filelist sampleConfig 3 "/".toList "/srv/data".toList
    (sampleWorld ["action=".toList, "filelist".toList, sampleConfig.DELIMITERBUFFER])
    ["action=".toList, "filelist".toList] sampleConfig.DELIMITERBUFFER []
    [("action".toList, ["filelist".toList])] [] "t1".toList
    [(".git".toList, .dir "t1".toList [("config".toList, .file "[core]".toList "t1".toList true)]),
      ("locked.bin".toList, .file "secret".toList "t2".toList false),
      ("notes.txt".toList, .file "hello".toList "t3".toList true),
      ("sub".toList, .dir "t1".toList [("a.txt".toList, .file "a".toList "t1".toList true)])]
    rfl (by decide) (by decide) rfl rfl rfl rfl rfl (by decide)
  match h with
  | ⟨body, w2, h1, h2, h3, _⟩ => ⟨body, w2, h1, h2, h3⟩

/-- C7, the claim as stated fails: below the root of the sample filesystem the
regular file `.git/config` has a name that does not begin with a dot, and the
answer to `POST /` with `action=filelist` has no frame for it: `walkDirectory`
skips the directory `.git` with everything in it. -/
theorem filelist_skips_hidden_directories :
    ∃ w2,
      handlePost sampleConfig 3 "/".toList
          (sampleWorld ["action=filelist".toList, sampleConfig.DELIMITERBUFFER])
        = .ok none w2 ∧
      w2.response =
        [statusCodeBuffer sampleConfig 200, "Content-Type: text/plain".toList,
          "/locked.bin\n".toList, "/notes.txt\n".toList, "/sub/a.txt\n".toList] ∧
      os.Stat (sampleWorld []) "/srv/data/.git/config".toList
        = some (.file "[core]".toList "t1".toList true) ∧
      "config".toList.head? ≠ some '.' ∧
      "/.git/config\n".toList ∉ w2.response :=
  ⟨_, rfl, rfl, rfl, by decide, by decide⟩


/-! ## Errors returned before the first write -/

theorem writeBody_response (cfg : Config) (f : List Str) (pre : List Frame) (d : Frame)
    (rest : List Frame) (hpre : ∀ g ∈ pre, cfg.IsDelimiter g = false)
    (hd : cfg.IsDelimiter d = true) (w : World) (x : Option HttpError) (w2 : World)
    (h : writeBody cfg f (pre ++ d :: rest) w = .ok x w2) : w2.response = w.response := by
  induction pre generalizing w with
  | nil =>
    simp only [List.nil_append, writeBody, hd, if_true] at h
    cases h
    rfl
  | cons g pre ih =>
    have hg : cfg.IsDelimiter g = false := hpre g (by simp)
    have hpre2 : ∀ g2 ∈ pre, cfg.IsDelimiter g2 = false := fun g2 h2 => hpre g2 (by simp [h2])
    have hfr := (os.Write_frames w f g).2.1
    simp only [List.cons_append, writeBody, hg] at h
    cases hw : os.Write w f g with
    | mk okFlag w3 =>
      rw [hw] at h hfr
      cases okFlag with
      | true => exact (ih hpre2 w3 h).trans hfr
      | false =>
        simp only [Bool.false_eq_true, if_false] at h
        rw [dropUntilDelimiter_delimited cfg _ pre d rest rfl hpre2 hd] at h
        simp only [Res.ok_andThen] at h
        cases h
        exact hfr

/-- Of the error returns of the five handlers, one comes after a write: the
`Could not open file` of `handleGet`.  Every other error is returned with the
response channel as the handler found it. -/
theorem handlers_error_before_write (cfg : Config) (fuel : Nat) (path : Str) (w : World)
    (pre : List Frame) (d : Frame) (rest : List Frame) (e : HttpError) (w2 : World)
    (hin : w.inbound = pre ++ d :: rest)
    (hpre : ∀ f ∈ pre, cfg.IsDelimiter f = false) (hd : cfg.IsDelimiter d = true) :
    (handleGet cfg path w = .ok (some e) w2 →
        w2.response = w.response ∨ e = NewHttpError 500 "Could not open file".toList) ∧
      (handleHead cfg path w = .ok (some e) w2 → w2.response = w.response) ∧
      (handlePut cfg path w = .ok (some e) w2 → w2.response = w.response) ∧
      (handleDelete cfg path w = .ok (some e) w2 → w2.response = w.response) ∧
      (handlePost cfg fuel path w = .ok (some e) w2 → w2.response = w.response) := by
  refine ⟨?_, ?_, ?_, ?_, ?_⟩
  · intro h
    unfold handleGet at h
    rw [dropUntilDelimiter_delimited cfg w pre d rest hin hpre hd] at h
    simp only [Res.ok_andThen] at h
    split at h
    · cases h
      exact Or.inl rfl
    · split at h
      · cases h
        exact Or.inl rfl
      · split at h
        · rw [Res.andThen_eq_ok] at h
          obtain ⟨_, w3, _, h3⟩ := h
          rw [Res.andThen_eq_ok] at h3
          obtain ⟨_, w4, _, h4⟩ := h3
          cases h4
        · rw [Res.andThen_eq_ok] at h
          obtain ⟨_, w3, h3, h4⟩ := h
          split at h4
          · cases h4
            exact Or.inr rfl
          · cases h4
  · intro h
    unfold handleHead at h
    rw [dropUntilDelimiter_delimited cfg w pre d rest hin hpre hd] at h
    simp only [Res.ok_andThen] at h
    split at h
    · cases h
      rfl
    · split at h
      · cases h
        rfl
      · rw [Res.andThen_eq_ok] at h
        obtain ⟨_, w3, _, h3⟩ := h
        cases h3
  · intro h
    unfold handlePut at h
    split at h
    · rw [dropUntilDelimiter_delimited cfg w pre d rest hin hpre hd] at h
      simp only [Res.ok_andThen] at h
      cases h
      rfl
    · dsimp only at h
      have hmk := os.MkdirAll_frames w (filepath.Base ‹Str›)
      split at h
      · rw [dropUntilDelimiter_delimited cfg _ pre d rest (hmk.1.trans hin) hpre hd] at h
        simp only [Res.ok_andThen] at h
        cases h
        exact hmk.2.1
      · rename_i f w3 hcreate
        have hc := os.Create_frames _ _ _ _ hcreate
        rw [hc.1, hmk.1, hin, Res.andThen_eq_ok] at h
        obtain ⟨err, w4, h4, h5⟩ := h
        have hw4 := writeBody_response cfg f pre d rest hpre hd w3 err w4 h4
        split at h5
        · cases h5
          exact hw4.trans (hc.2.1.trans hmk.2.1)
        · split at h5
          · cases h5
          · rw [Res.andThen_eq_ok] at h5
            obtain ⟨_, w5, _, h6⟩ := h5
            cases h6
  · intro h
    unfold handleDelete at h
    rw [dropUntilDelimiter_delimited cfg w pre d rest hin hpre hd] at h
    simp only [Res.ok_andThen] at h
    split at h
    · cases h
      rfl
    · split at h
      · cases h
        rfl
      · split at h
        · cases h
          rfl
        · rw [Res.andThen_eq_ok] at h
          obtain ⟨_, w3, _, h3⟩ := h
          cases h3
  · intro h
    unfold handlePost readWholeBody at h
    rw [hin, readLoop_delimited cfg w pre d rest [] hpre hd] at h
    simp only [Res.ok_andThen] at h
    split at h
    · cases h
      rfl
    · split at h
      · cases h
        rfl
      · split at h
        · cases h
          rfl
        · split at h
          · cases h
          · split at h
            · rw [Res.andThen_eq_ok] at h
              obtain ⟨_, w3, _, h3⟩ := h
              rw [Res.andThen_eq_ok] at h3
              obtain ⟨_, w4, _, h4⟩ := h3
              cases h4
            · cases h
              rfl

/-- A POST whose body has an `action` other than `filelist`, on a path that
exists: the error 501 `No such action`, and nothing written. -/
theorem handlePost_unknown_action (cfg : Config) (fuel : Nat) (path sp : Str) (w : World)
    (pre : List Frame) (d : Frame) (rest : List Frame) (vals : url.Values) (action : Str)
    (more : List Str) (stat : Node)
    (hin : w.inbound = pre ++ d :: rest)
    (hpre : ∀ f ∈ pre, cfg.IsDelimiter f = false) (hd : cfg.IsDelimiter d = true)
    (hquery : url.ParseQuery pre.flatten = .ok vals)
    (haction : url.Values.get vals "action".toList = action :: more)
    (hother : action ≠ "filelist".toList)
    (hsafe : safePath (os.Getwd w) cfg.rootPath path = .ok sp)
    (hstat : os.Stat w sp = some stat) :
    handlePost cfg fuel path w =
      .ok (some (NewHttpError 501 "No such action".toList)) { w with inbound := rest } := by
  have hstat2 : os.Stat { w with inbound := rest } sp = some stat := hstat
  unfold handlePost readWholeBody
  rw [hin, readLoop_delimited cfg w pre d rest [] hpre hd]
  simp only [Res.ok_andThen, List.nil_append]
  rw [hsafe]
  simp only [hstat2, hquery, haction, hother, if_false]

/-- A command line whose method is none of the five: no handler runs, and
`handleRequest` writes the delimiter alone and signals the completion once. -/
theorem handleRequest_unknown_method (cfg : Config) (fuel : Nat) (w : World)
    (commandBuffer headers : Frame) (rest : List Frame) (method : Str) (more : List Str)
    (hin : w.inbound = commandBuffer :: headers :: rest)
    (hparts : strings.Split commandBuffer ' ' = method :: more)
    (h1 : method ≠ "GET".toList) (h2 : method ≠ "HEAD".toList) (h3 : method ≠ "PUT".toList)
    (h4 : method ≠ "DELETE".toList) (h5 : method ≠ "POST".toList) :
    handleRequest cfg fuel w =
      .ok () { w with
        inbound := rest
        response := w.response ++ [cfg.DELIMITERBUFFER]
        closeSignals := w.closeSignals ++ [true] } := by
  unfold handleRequest recv
  simp only [hin, hparts, List.getElem?_cons_zero, h1, h2, h3, h4, h5, if_false,
    Res.ok_andThen, finishRequest]
  rfl

/-- The end of every exchange whose handler returned: the error response if
there is an error, then the delimiter as the last frame, and one completion
signal. -/
theorem finishRequest_eq (cfg : Config) (method : Str) (err : Option HttpError) (w : World) :
    finishRequest cfg method err w =
      .ok () { w with
        response := w.response ++
          (match err with
            | none => []
            | some e => errorFrames cfg method e) ++ [cfg.DELIMITERBUFFER]
        closeSignals := w.closeSignals ++ [true] } := by
  have hct : headerLine ("Content-Type".toList, "text/plain".toList)
      = "Content-Type: text/plain".toList := by decide
  have hcl : headerLine ("Content-Length".toList, "0".toList)
      = "Content-Length: 0".toList := by decide
  cases err with
  | none => simp [finishRequest, Res.ok_andThen, send]
  | some e =>
    unfold finishRequest sendError
    by_cases hm : method = "HEAD".toList
    · have hb : (method != "HEAD".toList) = false := by
        rw [hm]
        exact bne_self_eq_false _
      have hm2 : method = ['H', 'E', 'A', 'D'] := hm
      simp only [hb, Bool.false_eq_true, if_false]
      rw [sendHeaders_cons, headerBlock_singleton, hcl]
      simp [Res.ok_andThen, send, errorFrames, hm2]
    · have hb : (method != "HEAD".toList) = true := bne_iff_ne.2 hm
      have hm2 : ¬ method = ['H', 'E', 'A', 'D'] := hm
      simp only [hb, if_true]
      rw [sendHeaders_cons, headerBlock_singleton, hct]
      simp [Res.ok_andThen, send, errorFrames, hm2]

end Caelum
